import Mathlib

/-!
Verification development for the FLVER importer (src/importer.py).

The Python source manipulates 3-component vectors and 4x4 homogeneous
matrices from mathutils.  Every matrix the importer builds is affine with
bottom row (0, 0, 0, 1): the identity, Matrix.Rotation, Matrix.Translation
and their products.  Such a matrix is modelled here by an Aff value: a 3x3
linear part plus a translation vector.  The mathutils matrix product
becomes Aff.comp, and the action of a 4x4 matrix on a 3-component Vector
(mathutils promotes the vector with w = 1 and truncates the result)
becomes Aff.app.

Scalars are modelled by an arbitrary field K.  The trigonometric and
square-root functions used by the source are passed in as parameters
fcos, fsin and fsqrt, so each theorem quantifies over them and holds in
particular for the real cosine, sine and square root; claims whose truth
depends on algebraic properties of the real square root are stated over
K = Real with fsqrt = Real.sqrt.
-/

set_option linter.unusedSectionVars false

namespace FlverImport

/-- A 3-component vector, as used for positions and translations. -/
structure V3 (K : Type) where
  x : K
  y : K
  z : K
deriving DecidableEq

variable {K : Type} [Field K] [DecidableEq K]

instance : Add (V3 K) := ⟨fun a b => ⟨a.x + b.x, a.y + b.y, a.z + b.z⟩⟩

instance : Sub (V3 K) := ⟨fun a b => ⟨a.x - b.x, a.y - b.y, a.z - b.z⟩⟩

instance : Zero (V3 K) := ⟨⟨0, 0, 0⟩⟩

/-- Multiplication of a vector by a scalar (mathutils Vector * float). -/
def scale (c : K) (v : V3 K) : V3 K := ⟨c * v.x, c * v.y, c * v.z⟩

/-- Euclidean dot product of two 3-vectors. -/
def dotV (a b : V3 K) : K := a.x * b.x + a.y * b.y + a.z * b.z

/-- Cross product of two 3-vectors (used only to state parallelism). -/
def crossV (a b : V3 K) : V3 K :=
  ⟨a.y * b.z - a.z * b.y, a.z * b.x - a.x * b.z, a.x * b.y - a.y * b.x⟩

@[simp] theorem v3_add_def (a b : V3 K) :
    a + b = ⟨a.x + b.x, a.y + b.y, a.z + b.z⟩ := rfl

@[simp] theorem v3_sub_def (a b : V3 K) :
    a - b = ⟨a.x - b.x, a.y - b.y, a.z - b.z⟩ := rfl

@[simp] theorem v3_zero_def : (0 : V3 K) = ⟨0, 0, 0⟩ := rfl

@[simp] theorem v3_zero_x : (0 : V3 K).x = 0 := rfl

@[simp] theorem v3_zero_y : (0 : V3 K).y = 0 := rfl

@[simp] theorem v3_zero_z : (0 : V3 K).z = 0 := rfl

/-- A 3x3 matrix given by its three rows. -/
structure M3 (K : Type) where
  r0 : V3 K
  r1 : V3 K
  r2 : V3 K
deriving DecidableEq

/-- Matrix-vector product. -/
def mulVec (m : M3 K) (v : V3 K) : V3 K := ⟨dotV m.r0 v, dotV m.r1 v, dotV m.r2 v⟩

/-- Column extraction, used to define the matrix product. -/
def col0 (m : M3 K) : V3 K := ⟨m.r0.x, m.r1.x, m.r2.x⟩

def col1 (m : M3 K) : V3 K := ⟨m.r0.y, m.r1.y, m.r2.y⟩

def col2 (m : M3 K) : V3 K := ⟨m.r0.z, m.r1.z, m.r2.z⟩

/-- Matrix product of two 3x3 matrices. -/
def mmul (a b : M3 K) : M3 K :=
  ⟨⟨dotV a.r0 (col0 b), dotV a.r0 (col1 b), dotV a.r0 (col2 b)⟩,
   ⟨dotV a.r1 (col0 b), dotV a.r1 (col1 b), dotV a.r1 (col2 b)⟩,
   ⟨dotV a.r2 (col0 b), dotV a.r2 (col1 b), dotV a.r2 (col2 b)⟩⟩

/-- The 3x3 identity matrix. -/
def idM3 : M3 K := ⟨⟨1, 0, 0⟩, ⟨0, 1, 0⟩, ⟨0, 0, 1⟩⟩

/-- An affine transform: the model of a mathutils 4x4 matrix whose bottom
row is (0, 0, 0, 1).  All matrices built by the importer have this shape. -/
structure Aff (K : Type) where
  lin : M3 K
  tr : V3 K
deriving DecidableEq

/-- Product of two affine 4x4 matrices (mathutils @ between matrices). -/
def Aff.comp (a b : Aff K) : Aff K := ⟨mmul a.lin b.lin, mulVec a.lin b.tr + a.tr⟩

/-- Action of an affine 4x4 matrix on a 3-component vector
(mathutils @ between a matrix and a Vector). -/
def Aff.app (a : Aff K) (v : V3 K) : V3 K := mulVec a.lin v + a.tr

/-- The identity matrix, mathutils Matrix(). -/
def affId : Aff K := ⟨idM3, 0⟩

/-- mathutils Matrix.Translation. -/
def translationAff (t : V3 K) : Aff K := ⟨idM3, t⟩

/-- A rotation matrix promoted to a 4x4 matrix (zero translation part). -/
def rotAff (m : M3 K) : Aff K := ⟨m, 0⟩

section Trig

variable (fcos fsin : K → K)

/-- mathutils Matrix.Rotation(angle, 4, 'X') restricted to its linear part. -/
def rotX (t : K) : M3 K :=
  ⟨⟨1, 0, 0⟩, ⟨0, fcos t, -fsin t⟩, ⟨0, fsin t, fcos t⟩⟩

/-- mathutils Matrix.Rotation(angle, 4, 'Y') restricted to its linear part. -/
def rotY (t : K) : M3 K :=
  ⟨⟨fcos t, 0, fsin t⟩, ⟨0, 1, 0⟩, ⟨-fsin t, 0, fcos t⟩⟩

/-- mathutils Matrix.Rotation(angle, 4, 'Z') restricted to its linear part. -/
def rotZ (t : K) : M3 K :=
  ⟨⟨fcos t, -fsin t, 0⟩, ⟨fsin t, fcos t, 0⟩, ⟨0, 0, 1⟩⟩

end Trig

/-- src/importer.py line 59: convert_coordinates(x, y, z, z_up). -/
def convert_coordinates (x y z : K) (z_up : Bool) : K × K × K :=
  if z_up then (x, z, y) else (x, y, z)

/-- convert_coordinates applied to a packed triple. -/
def convApply (p : K × K × K) (z_up : Bool) : K × K × K :=
  convert_coordinates p.1 p.2.1 p.2.2 z_up

/-- convert_coordinates applied to the components of a vector, packed back
into a vector, as done on lines 206-207 when assigning head and tail. -/
def convertV3 (z_up : Bool) (v : V3 K) : V3 K :=
  let p := convert_coordinates v.x v.y v.z z_up
  ⟨p.1, p.2.1, p.2.2⟩

/-- One FLVER bone record (input data model, produced by the excluded
binary decoder): name, local translation, local rotation (Euler angles,
component i stored at rotation index i), and the three signed link
indices with -1 meaning absent. -/
structure FlverBone (K : Type) where
  name : String
  translation : V3 K
  rotation : V3 K
  parent_index : Int
  child_index : Int
  next_sibling_index : Int
deriving DecidableEq

section Trig

variable (fcos fsin : K → K)

/-- src/importer.py lines 144-150: get_rotation_matrix, composing the
rotations about Y, Z and X, in that order, from the bone Euler angles
(rotation[1] about Y, rotation[2] about Z, rotation[0] about X). -/
def get_rotation_matrix (bone : FlverBone K) : M3 K :=
  mmul (mmul (rotY fcos fsin bone.rotation.y) (rotZ fcos fsin bone.rotation.z))
    (rotX fcos fsin bone.rotation.x)

end Trig

/-- The state of one Blender edit bone: world-space head and tail, the
optional parent (by index into the armature), and the use_connect flag.
Freshly created edit bones have head and tail at the origin, no parent
and use_connect off. -/
structure EditBone (K : Type) where
  head : V3 K
  tail : V3 K
  parent : Option Nat
  use_connect : Bool
deriving DecidableEq

/-- A freshly created edit bone. -/
def newEditBone : EditBone K := ⟨0, 0, none, false⟩

/-- The list of edit bones created by lines 178-180, one per FLVER bone. -/
def initEditBones (n : Nat) : List (EditBone K) := List.replicate n newEditBone

/-- Apply f to the element at position i, leaving the rest unchanged. -/
def modifyAt {α : Type} (f : α → α) : Nat → List α → List α
  | _, [] => []
  | 0, b :: t => f b :: t
  | n + 1, b :: t => b :: modifyAt f n t

/-- Parent link of edit bone i in state s. -/
def parentAt (s : List (EditBone K)) (i : Nat) : Option Nat :=
  (s.getD i newEditBone).parent

/-- Head of edit bone i in state s. -/
def headAt (s : List (EditBone K)) (i : Nat) : V3 K :=
  (s.getD i newEditBone).head

/-- Tail of edit bone i in state s. -/
def tailAt (s : List (EditBone K)) (i : Nat) : V3 K :=
  (s.getD i newEditBone).tail

/-- use_connect flag of edit bone i in state s. -/
def useAt (s : List (EditBone K)) (i : Nat) : Bool :=
  (s.getD i newEditBone).use_connect

section Trig

variable (fcos fsin : K → K)

/-- src/importer.py lines 185-219: transform_bone(bone_index, parent_matrix),
acting on the list of edit bones.  The extra fuel argument bounds the
recursion depth (the Python recursion is unbounded and diverges on cyclic
link structures, which the design does not defend against); every theorem
below supplies enough fuel for the inputs it covers. -/
def transform_bone (bones : List (FlverBone K)) (z_up : Bool) :
    Nat → Int → Aff K → List (EditBone K) → List (EditBone K)
  | 0, _, _, s => s
  | fuel + 1, bone_index, parent_matrix, s =>
    if bone_index < 0 ∨ (bones.length : Int) ≤ bone_index then s else
    match bones.get? bone_index.toNat with
    | none => s
    | some flver_bone =>
      let n : Int := bones.length
      let s1 := if 0 ≤ flver_bone.parent_index ∧ flver_bone.parent_index < n then
          modifyAt (fun b => { b with parent := some flver_bone.parent_index.toNat })
            bone_index.toNat s
        else s
      let rotation_matrix := get_rotation_matrix fcos fsin flver_bone
      let head := parent_matrix.app flver_bone.translation
      let tail := head + (rotAff rotation_matrix).app ⟨0, 5 / 100, 0⟩
      let s2 := modifyAt
        (fun b => { b with head := convertV3 z_up head, tail := convertV3 z_up tail })
        bone_index.toNat s1
      let child_matrix :=
        (parent_matrix.comp (translationAff flver_bone.translation)).comp
          (rotAff rotation_matrix)
      let s3 := if 0 ≤ flver_bone.child_index ∧ flver_bone.child_index < n then
          transform_bone bones z_up fuel flver_bone.child_index child_matrix s2
        else s2
      if 0 ≤ flver_bone.next_sibling_index ∧ flver_bone.next_sibling_index < n then
        transform_bone bones z_up fuel flver_bone.next_sibling_index parent_matrix s3
      else s3

end Trig

/-- The trace of bone indices visited by transform_bone, in visit order.
It mirrors the recursion of transform_bone exactly; the accumulated matrix
is dropped because it does not influence which bones are visited. -/
def visits (bones : List (FlverBone K)) : Nat → Int → List Nat
  | 0, _ => []
  | fuel + 1, bone_index =>
    if bone_index < 0 ∨ (bones.length : Int) ≤ bone_index then [] else
    match bones.get? bone_index.toNat with
    | none => []
    | some fb =>
      let n : Int := bones.length
      bone_index.toNat ::
        ((if 0 ≤ fb.child_index ∧ fb.child_index < n then
            visits bones fuel fb.child_index else []) ++
         (if 0 ≤ fb.next_sibling_index ∧ fb.next_sibling_index < n then
            visits bones fuel fb.next_sibling_index else []))

/-- Indices of the root bones (parent_index < 0), collected in creation
order by lines 178-182. -/
def rootIndices (bones : List (FlverBone K)) : List Nat :=
  (List.range bones.length).filter fun i =>
    (bones.getD i ⟨"", 0, 0, -1, -1, -1⟩).parent_index < 0

/-- Children of edit bone i: the edit bones whose parent is i, in armature
order.  This is how Blender computes bone.children on line 227. -/
def childrenOf (s : List (EditBone K)) (i : Nat) : List Nat :=
  (List.range s.length).filter fun j => parentAt s j = some i

section Sqrt

variable (fsqrt : K → K)

/-- mathutils Vector.magnitude: the square root of the self dot product. -/
def magV (v : V3 K) : K := fsqrt (dotV v v)

/-- mathutils Vector.normalize: the zero vector when the squared length is
zero (mathutils zeroes the vector below a tiny threshold; in this exact
model the threshold is exact zero), otherwise the vector divided by its
magnitude. -/
def normalizeV (v : V3 K) : V3 K :=
  if dotV v v = 0 then 0 else scale (1 / magV fsqrt v) v

/-- src/importer.py lines 226-243: connect_bone(bone), acting on the edit
bone state by index.  fuel bounds the recursion depth as in
transform_bone. -/
def connect_bone (fsqrt : K → K) : Nat → Nat → List (EditBone K) → List (EditBone K)
  | 0, _, s => s
  | fuel + 1, i, s =>
    match childrenOf s i with
    | [] =>
      match parentAt s i with
      | none => s
      | some p =>
        let direction := normalizeV fsqrt (tailAt s p - headAt s p)
        let len := magV fsqrt (tailAt s i - headAt s i)
        modifyAt (fun b => { b with tail := b.head + scale len direction }) i s
    | [c] =>
      let s1 := modifyAt (fun b => { b with tail := headAt s c }) i s
      let s2 := modifyAt (fun b => { b with use_connect := true }) c s1
      connect_bone fsqrt fuel c s2
    | c0 :: c1 :: rest =>
      (c0 :: c1 :: rest).foldl (fun st c => connect_bone fsqrt fuel c st) s

/-- Lines 245-246: run connect_bone over every root bone, in order. -/
def connectAll (fsqrt : K → K) (fuel : Nat) (roots : List Nat)
    (s : List (EditBone K)) : List (EditBone K) :=
  roots.foldl (fun st r => connect_bone fsqrt fuel r st) s

end Sqrt

section Trig

variable (fcos fsin fsqrt : K → K)

/-- src/importer.py lines 153-249: create_armature.  Returns none when the
asset has no bones (line 166), otherwise the final edit bone state after
the traversal from bone 0 with the identity matrix and the connect pass
over all roots. -/
def create_armature (bones : List (FlverBone K)) (z_up : Bool)
    (fuelT fuelC : Nat) : Option (List (EditBone K)) :=
  if bones.length = 0 then none
  else
    let s0 : List (EditBone K) := initEditBones bones.length
    let s1 := if 0 < bones.length then
        transform_bone fcos fsin bones z_up fuelT 0 affId s0
      else s0
    some (connectAll fsqrt fuelC (rootIndices bones) s1)

end Trig

/-! ## Mesh binder -/

/-- Python sequence indexing: a negative index counts from the end, and an
index outside [-len, len) raises IndexError (modelled by none). -/
def pyGet? {α : Type} (l : List α) (i : Int) : Option α :=
  if 0 ≤ i then l.get? i.toNat
  else if 0 ≤ i + l.length then l.get? (i + l.length).toNat else none

/-- One FLVER mesh descriptor: the material index and the local bone
palette (bone_indices), mapping a local slot to a skeleton-global bone
index. -/
structure MeshDesc where
  material_index : Int
  bone_indices : List Int
deriving DecidableEq

/-- The flat per-vertex attribute arrays produced by the excluded inflate
step, plus the face list read by create_mesh.  The UV array is not
modelled: no verified claim concerns the UV pass. -/
structure InflatedMesh (K : Type) where
  positions : List (K × K × K)
  bone_weights : List (List K)
  bone_indices : List (List Nat)
  faces : List (Nat × Nat × Nat)
deriving DecidableEq

/-- The full FLVER data consumed by the importer: bones, material names
and mesh descriptors. -/
structure FlverData (K : Type) where
  bones : List (FlverBone K)
  materials : List String
  meshes : List MeshDesc
deriving DecidableEq

/-- Assignment into a bmesh deform vert (a dict keyed by vertex group
index): overwrite the entry when the key is present, append it otherwise. -/
def dset (l : List (Nat × K)) (i : Nat) (w : K) : List (Nat × K) :=
  match l with
  | [] => [(i, w)]
  | (j, u) :: t => if j = i then (i, w) :: t else (j, u) :: dset t i w

/-- Lookup in a deform vert. -/
def dget? (l : List (Nat × K)) (i : Nat) : Option K :=
  (l.find? fun p => p.1 = i).map fun p => p.2

/-- src/importer.py lines 119-137, for a single vertex: fetch the weight
and index arrays of the vertex (an IndexError on either one aborts the
vertex, leaving its deform entry empty), then write each pair with a
nonzero weight into the deform vert keyed by the raw local slot index. -/
def vertexDeform (bw : List (List K)) (bi : List (List Nat)) (v : Nat) :
    List (Nat × K) :=
  match bw.get? v, bi.get? v with
  | some weights, some indices =>
    (indices.zip weights).foldl
      (fun acc p => if p.2 ≠ 0 then dset acc p.1 p.2 else acc) []
  | _, _ => []

/-- The produced mesh data relevant to the verified claims: converted
vertex positions, the unchanged face list, the names of the vertex groups
created (in creation order, one per palette entry whose skeleton lookup
succeeded), and, when an armature exists, the per-vertex deform table
keyed by vertex group index. -/
structure BoundMesh (K : Type) where
  name : String
  verts : List (K × K × K)
  faces : List (Nat × Nat × Nat)
  groupNames : List String
  deform : Option (List (List (Nat × K)))
deriving DecidableEq

/-- The message of the uncaught IndexError of line 71. -/
def materialIndexError : String := "IndexError: material index out of range"

/-- src/importer.py lines 67-141: create_mesh.  The host-side calls
(object and collection linking, UV layer, smoothing) are not modelled;
the data produced for the verified claims is.  The uncaught IndexError on
the material lookup of line 71 is modelled by the error case. -/
def create_mesh (base_name : String) (flver_data : FlverData K)
    (flver_mesh : MeshDesc) (inflated_mesh : InflatedMesh K)
    (armature : Option (List (EditBone K))) (z_up : Bool) :
    Except String (BoundMesh K) :=
  match pyGet? flver_data.materials flver_mesh.material_index with
  | none => .error materialIndexError
  | some material_name =>
    let mesh_name := base_name ++ "_" ++ material_name
    let verts := inflated_mesh.positions.map fun v => convApply v z_up
    let groupNames := if armature.isSome then
        flver_mesh.bone_indices.foldl
          (fun acc bone_index =>
            match pyGet? flver_data.bones bone_index with
            | some b => acc ++ [b.name]
            | none => acc)
          []
      else []
    let deform := if armature.isSome then
        some ((List.range inflated_mesh.positions.length).map
          (vertexDeform inflated_mesh.bone_weights inflated_mesh.bone_indices))
      else none
    .ok ⟨mesh_name, verts, inflated_mesh.faces, groupNames, deform⟩

/-- The result of one import: the optional armature state and the bound
meshes, in order. -/
structure ImportResult (K : Type) where
  armature : Option (List (EditBone K))
  meshes : List (BoundMesh K)
deriving DecidableEq

section Trig

variable (fcos fsin fsqrt : K → K)

/-- src/importer.py lines 11-56: import_flver.  The file reading and the
inflate step are excluded inputs; the inflated meshes are passed in as a
list aligned with flver_data.meshes.  An armature is created only when
there are bones; a mesh slot whose inflation result is none is skipped. -/
def import_flver (base_name : String) (flver_data : FlverData K)
    (inflated_meshes : List (Option (InflatedMesh K))) (z_up : Bool)
    (fuelT fuelC : Nat) : Except String (ImportResult K) :=
  let armature := if flver_data.bones.length > 0 then
      create_armature fcos fsin fsqrt flver_data.bones z_up fuelT fuelC
    else none
  ((flver_data.meshes.zip inflated_meshes).foldlM
    (fun (acc : List (BoundMesh K)) (mp : MeshDesc × Option (InflatedMesh K)) =>
      match mp.2 with
      | none => pure acc
      | some inflated_mesh =>
        (create_mesh base_name flver_data mp.1 inflated_mesh armature z_up).map
          fun bm => acc ++ [bm])
    ([] : List (BoundMesh K))).map
    fun ms => ⟨armature, ms⟩

end Trig

/-- Index of the first string equal to nm in a list, as used to model how
the Blender armature modifier matches a vertex group to a bone: by name,
taking the first group whose name matches. -/
def idxOf? (nm : String) : List String → Option Nat
  | [] => none
  | a :: t => if a = nm then some 0 else (idxOf? nm t).map (· + 1)

/-- The skin weight that the produced mesh actually binds to the
skeleton-global bone b for vertex v.  Modelled Blender semantics: the
armature modifier deforms a vertex through the vertex group whose name
equals the bone name (the first such group), reading that group key from
the deform table.  Name collisions among vertex groups (Blender suffixes
duplicates) are not modelled; every theorem using this function assumes
distinct relevant names, under which the two semantics agree. -/
def boundWeight? (skeleton : List (FlverBone K)) (bm : BoundMesh K)
    (v b : Nat) : Option K :=
  match skeleton.get? b with
  | none => none
  | some bone =>
    match idxOf? bone.name bm.groupNames with
    | none => none
    | some g =>
      match bm.deform with
      | none => none
      | some d =>
        match d.get? v with
        | none => none
        | some dv => dget? dv g

/-! ## Finite rose trees, used to state the well-formedness hypotheses of
the amended structural claims (spanning link tree for the resolver,
parent forest for the chain simplifier). -/

mutual

/-- A finite tree of bone indices. -/
inductive BT where
  | node : Nat → BTList → BT

/-- A finite list of trees (a forest, or the children of one node). -/
inductive BTList where
  | nil : BTList
  | cons : BT → BTList → BTList

end

/-- The index at the root of a tree. -/
def BT.root : BT → Nat
  | .node i _ => i

mutual

/-- All indices of a tree, in preorder (node first, then the subtrees,
left to right) - exactly the visit order of the traversals below. -/
def nodesT : BT → List Nat
  | .node i cs => i :: nodesC cs

/-- All indices of a forest, in preorder. -/
def nodesC : BTList → List Nat
  | .nil => []
  | .cons t ts => nodesT t ++ nodesC ts

end

/-- The roots of the trees of a forest, in order. -/
def rootsC : BTList → List Nat
  | .nil => []
  | .cons t ts => t.root :: rootsC ts

mutual

/-- The tree t matches the child/next_sibling link structure of the bone
records: the node index is in range, its child link encodes the chain of
its subtrees, and an absent chain corresponds to a link outside [0, N)
(exactly the links the traversal of transform_bone ignores). -/
def encTree (bones : List (FlverBone K)) : BT → Bool
  | .node i cs =>
    match bones.get? i with
    | none => false
    | some b => encChain bones b.child_index cs

/-- The link l encodes the chain of trees ts via next_sibling links. -/
def encChain (bones : List (FlverBone K)) : Int → BTList → Bool
  | l, .nil => decide (¬ (0 ≤ l ∧ l < (bones.length : Int)))
  | l, .cons t ts =>
    decide (0 ≤ l) && decide (l = (t.root : Int)) && encTree bones t &&
    (match bones.get? t.root with
     | none => false
     | some b => encChain bones b.next_sibling_index ts)

end

mutual

/-- The tree t matches the parent structure of the edit bone state s: the
node index is in range and its children in s (in armature order) are
exactly the roots of its subtrees.  connect_bone recursion follows this
structure. -/
def encCT (s : List (EditBone K)) : BT → Bool
  | .node i cs =>
    decide (i < s.length) && decide (childrenOf s i = rootsC cs) && encCTs s cs

/-- Every tree of the forest matches the parent structure of s. -/
def encCTs (s : List (EditBone K)) : BTList → Bool
  | .nil => true
  | .cons t ts => encCT s t && encCTs s ts

end

/-! ## Definitions written from the specification text, for comparison
with the code (refinement-style claims). -/

section Trig

variable (fcos fsin : K → K)

/-- From the spec: head = M applied to the local translation of the bone. -/
def specHead (M : Aff K) (b : FlverBone K) : V3 K := M.app b.translation

/-- From the spec: tail = head + R applied to (0, L, 0) with L the fixed
constant 0.05 and R the local rotation-only matrix of the bone. -/
def specTail (M : Aff K) (b : FlverBone K) : V3 K :=
  specHead M b + (rotAff (get_rotation_matrix fcos fsin b)).app ⟨0, 5 / 100, 0⟩

/-- From the spec: the transform passed to a descendant is
M x Translation(local_translation) x R. -/
def specChildTransform (M : Aff K) (b : FlverBone K) : Aff K :=
  (M.comp (translationAff b.translation)).comp
    (rotAff (get_rotation_matrix fcos fsin b))

end Trig

/-! ## Basic lemmas about modifyAt -/

theorem length_modifyAt {α : Type} (f : α → α) (i : Nat) (l : List α) :
    (modifyAt f i l).length = l.length := by
  induction l generalizing i with
  | nil => cases i <;> rfl
  | cons b t ih =>
    cases i with
    | zero => rfl
    | succ n => simpa [modifyAt] using ih n

theorem getD_modifyAt_self {α : Type} (f : α → α) (i : Nat) (l : List α)
    (d : α) (h : i < l.length) :
    (modifyAt f i l).getD i d = f (l.getD i d) := by
  induction l generalizing i with
  | nil => simp at h
  | cons b t ih =>
    cases i with
    | zero => rfl
    | succ n =>
      simp only [modifyAt, List.getD_cons_succ]
      exact ih n (by simpa using h)

theorem getD_modifyAt_ne {α : Type} (f : α → α) (i j : Nat) (l : List α)
    (d : α) (h : j ≠ i) :
    (modifyAt f i l).getD j d = l.getD j d := by
  induction l generalizing i j with
  | nil => cases i <;> rfl
  | cons b t ih =>
    cases i with
    | zero =>
      cases j with
      | zero => exact absurd rfl h
      | succ m => rfl
    | succ n =>
      cases j with
      | zero => rfl
      | succ m =>
        simp only [modifyAt, List.getD_cons_succ]
        exact ih n m (by omega)

/-! ## Theorems for the claims -/

/-- C7: for every input, the coordinate converter returns the input
unchanged for the native (Y-up) convention and swaps the last two
components for the up-axis-swapped (Z-up) convention; applying the
swapped conversion twice is the identity. -/
theorem convert_coordinates_spec (x y z : K) (p : K × K × K) :
    convert_coordinates x y z true = (x, z, y) ∧
    convert_coordinates x y z false = (x, y, z) ∧
    convApply (convApply p true) true = p := by
  refine ⟨rfl, rfl, ?_⟩
  simp [convApply, convert_coordinates]

/-- C1: one step of the resolver on an in-range bone visited with
accumulated parent matrix M.  The head written is M applied to the local
translation, the tail written is head plus the local rotation-only matrix
(built from the Euler angles of the bone in Y, Z, X order) applied to
(0, 0.05, 0), the child recursion receives M x Translation x R, and the
sibling recursion receives the same M the bone received. -/
theorem resolver_step_spec (fcos fsin : K → K) (bones : List (FlverBone K))
    (z_up : Bool) (fuel : Nat) (bi : Int) (M : Aff K) (s : List (EditBone K))
    (fb : FlverBone K)
    (h0 : 0 ≤ bi) (hlt : bi < (bones.length : Int))
    (hfb : bones.get? bi.toNat = some fb) :
    transform_bone fcos fsin bones z_up (fuel + 1) bi M s =
      (let n : Int := bones.length
       let s1 := if 0 ≤ fb.parent_index ∧ fb.parent_index < n then
           modifyAt (fun b => { b with parent := some fb.parent_index.toNat })
             bi.toNat s
         else s
       let s2 := modifyAt (fun b =>
           { b with head := convertV3 z_up (specHead M fb),
                    tail := convertV3 z_up (specTail fcos fsin M fb) })
         bi.toNat s1
       let s3 := if 0 ≤ fb.child_index ∧ fb.child_index < n then
           transform_bone fcos fsin bones z_up fuel fb.child_index
             (specChildTransform fcos fsin M fb) s2
         else s2
       if 0 ≤ fb.next_sibling_index ∧ fb.next_sibling_index < n then
         transform_bone fcos fsin bones z_up fuel fb.next_sibling_index M s3
       else s3) := by
  have hguard : ¬ (bi < 0 ∨ (bones.length : Int) ≤ bi) := by omega
  simp only [transform_bone, hguard, if_false, hfb, specHead, specTail,
    specChildTransform]

/-! ## Concrete inputs used by witnesses and counterexamples.  The
trigonometric parameters wcos and wsin are the values of the real cosine
and sine at angle zero; every witness below uses zero Euler angles, where
these are the exact real values. -/

def wcos : ℚ → ℚ := fun _ => 1

def wsin : ℚ → ℚ := fun _ => 0

def wsqrt : ℚ → ℚ := fun _ => 0

def nmA : String := "a"

def nmB : String := "b"

def nmC : String := "c"

def wBone1 : FlverBone ℚ := ⟨nmA, ⟨1, 2, 3⟩, 0, -1, -1, -1⟩

/-- Witness for C1: the resolver step theorem applied to a one-bone
skeleton at bone 0 with the identity matrix, the result evaluated. -/
theorem resolver_step_spec_witness :
    ((0 : Int) ≤ 0 ∧ (0 : Int) < (([wBone1] : List (FlverBone ℚ)).length : Int) ∧
      ([wBone1] : List (FlverBone ℚ)).get? (0 : Int).toNat = some wBone1) ∧
    transform_bone wcos wsin [wBone1] true 1 0 affId (initEditBones 1) =
      [⟨⟨1, 3, 2⟩, ⟨1, 3, 2 + 5 / 100⟩, none, false⟩] := by
  refine ⟨⟨by decide, by decide, rfl⟩, ?_⟩
  rw [resolver_step_spec wcos wsin [wBone1] true 0 0 affId (initEditBones 1)
    wBone1 (by decide) (by decide) rfl]
  norm_num [modifyAt, initEditBones, newEditBone, convertV3, convert_coordinates,
    specHead, specTail, specChildTransform, get_rotation_matrix, rotX, rotY,
    rotZ, mmul, mulVec, dotV, col0, col1, col2, Aff.app, Aff.comp, rotAff,
    translationAff, affId, idM3, wcos, wsin, wBone1, List.replicate, scale]

/-- An index is a usable bone reference exactly when it lies in [0, N);
transform_bone treats every other value as absent. -/
def validLink (bones : List (FlverBone K)) (l : Int) : Prop :=
  0 ≤ l ∧ l < (bones.length : Int)

instance (bones : List (FlverBone K)) (l : Int) : Decidable (validLink bones l) :=
  inferInstanceAs (Decidable (_ ∧ _))

theorem transform_bone_stop (fcos fsin : K → K) (bones : List (FlverBone K))
    (z_up : Bool) (fuel : Nat) (bi : Int) (M : Aff K) (s : List (EditBone K))
    (h : ¬ validLink bones bi) :
    transform_bone fcos fsin bones z_up fuel bi M s = s := by
  cases fuel with
  | zero => rfl
  | succ f =>
    have hg : bi < 0 ∨ (bones.length : Int) ≤ bi := by
      simp only [validLink, not_and, not_lt] at h; omega
    simp only [transform_bone, hg, if_true]

/-- Two bone lists of the same length whose records agree on everything
the traversal reads (translation, rotation, parent link, and the child and
sibling links up to replacing an invalid link by another invalid link)
drive transform_bone identically. -/
theorem transform_bone_congr (fcos fsin : K → K)
    (bones bones' : List (FlverBone K)) (z_up : Bool)
    (hlen : bones'.length = bones.length)
    (hnone : ∀ j, bones.get? j = none → bones'.get? j = none)
    (hsome : ∀ j fb, bones.get? j = some fb → ∃ fb',
      bones'.get? j = some fb' ∧
      fb'.translation = fb.translation ∧ fb'.rotation = fb.rotation ∧
      fb'.parent_index = fb.parent_index ∧
      (validLink bones fb.child_index ↔ validLink bones fb'.child_index) ∧
      (validLink bones fb.child_index → fb'.child_index = fb.child_index) ∧
      (validLink bones fb.next_sibling_index ↔
        validLink bones fb'.next_sibling_index) ∧
      (validLink bones fb.next_sibling_index →
        fb'.next_sibling_index = fb.next_sibling_index)) :
    ∀ (fuel : Nat) (bi : Int) (M : Aff K) (s : List (EditBone K)),
      transform_bone fcos fsin bones z_up fuel bi M s =
        transform_bone fcos fsin bones' z_up fuel bi M s := by
  intro fuel
  induction fuel with
  | zero => intro bi M s; rfl
  | succ f ih =>
    intro bi M s
    by_cases hg : bi < 0 ∨ (bones.length : Int) ≤ bi
    · simp only [transform_bone, hg, if_true, hlen]
    · simp only [transform_bone, hg, if_true, if_false, hlen]
      cases hget : bones.get? bi.toNat with
      | none =>
        rw [hnone _ hget]
      | some fb =>
        obtain ⟨fb', hget', htr, hrot, hpar, hciff, hceq, hsiff, hseq⟩ :=
          hsome _ _ hget
        rw [hget']
        simp only [get_rotation_matrix, htr, hrot, hpar]
        by_cases hc : validLink bones fb.child_index
        · have hc' : validLink bones fb'.child_index := hciff.mp hc
          simp only [validLink] at hc hc'
          rw [if_pos hc, if_pos hc', hceq (by simpa [validLink] using hc)]
          by_cases hs : validLink bones fb.next_sibling_index
          · have hs' : validLink bones fb'.next_sibling_index := hsiff.mp hs
            simp only [validLink] at hs hs'
            rw [if_pos hs, if_pos hs', hseq (by simpa [validLink] using hs)]
            rw [ih, ih]
          · have hs' : ¬ validLink bones fb'.next_sibling_index :=
              fun hx => hs (hsiff.mpr hx)
            simp only [validLink] at hs hs'
            rw [if_neg hs, if_neg hs', ih]
        · have hc' : ¬ validLink bones fb'.child_index :=
            fun hx => hc (hciff.mpr hx)
          simp only [validLink] at hc hc'
          rw [if_neg hc, if_neg hc']
          by_cases hs : validLink bones fb.next_sibling_index
          · have hs' : validLink bones fb'.next_sibling_index := hsiff.mp hs
            simp only [validLink] at hs hs'
            rw [if_pos hs, if_pos hs', hseq (by simpa [validLink] using hs)]
            rw [ih]
          · have hs' : ¬ validLink bones fb'.next_sibling_index :=
              fun hx => hs (hsiff.mpr hx)
            simp only [validLink] at hs hs'
            rw [if_neg hs, if_neg hs']

/-- C8: an out-of-range starting index (including negative values other
than -1) leaves the state untouched, and an out-of-range child or sibling
link behaves exactly like the designated absent sentinel -1: that branch
is dropped and the remainder of the traversal proceeds as if the link
were absent. -/
theorem resolver_out_of_range_absent (fcos fsin : K → K)
    (bones : List (FlverBone K)) (z_up : Bool) :
    (∀ (fuel : Nat) (bi : Int) (M : Aff K) (s : List (EditBone K)),
      ¬ validLink bones bi →
      transform_bone fcos fsin bones z_up fuel bi M s = s) ∧
    (∀ (i : Nat) (fb : FlverBone K), bones.get? i = some fb →
      ¬ validLink bones fb.child_index →
      ∀ (fuel : Nat) (bj : Int) (M : Aff K) (s : List (EditBone K)),
        transform_bone fcos fsin bones z_up fuel bj M s =
          transform_bone fcos fsin (bones.set i { fb with child_index := -1 })
            z_up fuel bj M s) ∧
    (∀ (i : Nat) (fb : FlverBone K), bones.get? i = some fb →
      ¬ validLink bones fb.next_sibling_index →
      ∀ (fuel : Nat) (bj : Int) (M : Aff K) (s : List (EditBone K)),
        transform_bone fcos fsin bones z_up fuel bj M s =
          transform_bone fcos fsin
            (bones.set i { fb with next_sibling_index := -1 })
            z_up fuel bj M s) := by
  refine ⟨fun fuel bi M s h => transform_bone_stop fcos fsin bones z_up fuel bi M s h,
    fun i fb hget hinv fuel bj M s => ?_, fun i fb hget hinv fuel bj M s => ?_⟩
  · refine transform_bone_congr fcos fsin bones _ z_up (by simp)
      (fun j hj => ?_) (fun j fb0 hj => ?_) fuel bj M s
    · rcases Nat.lt_or_ge j bones.length with hlt | hge
      · simp [List.get?_eq_none] at hj; omega
      · rw [List.get?_eq_none]; simpa using hge
    · by_cases hji : j = i
      · subst hji
        have hfb0 : fb0 = fb := by rw [hj] at hget; exact Option.some.inj hget
        subst hfb0
        have hilt : j < bones.length := by
          rcases List.get?_eq_some.mp hj with ⟨h, _⟩; exact h
        refine ⟨{ fb0 with child_index := -1 },
          by rw [List.get?_set_eq_of_lt _ hilt], rfl, rfl, rfl, ?_, ?_, ?_, ?_⟩
        · constructor
          · intro hx; exact absurd hx hinv
          · intro hx; exact absurd hx (by simp [validLink])
        · intro hx; exact absurd hx hinv
        · exact Iff.rfl
        · intro _; rfl
      · exact ⟨fb0, by rw [List.get?_set_ne _ _ (fun h => hji h.symm)]; exact hj,
          rfl, rfl, rfl, Iff.rfl, fun _ => rfl, Iff.rfl, fun _ => rfl⟩
  · refine transform_bone_congr fcos fsin bones
      (bones.set i { fb with next_sibling_index := -1 }) z_up (by simp)
      (fun j hj => ?_) (fun j fb0 hj => ?_) fuel bj M s
    · rcases Nat.lt_or_ge j bones.length with hlt | hge
      · simp [List.get?_eq_none] at hj; omega
      · rw [List.get?_eq_none]; simpa using hge
    · by_cases hji : j = i
      · subst hji
        have hfb0 : fb0 = fb := by rw [hj] at hget; exact Option.some.inj hget
        subst hfb0
        have hilt : j < bones.length := by
          rcases List.get?_eq_some.mp hj with ⟨h, _⟩; exact h
        refine ⟨{ fb0 with next_sibling_index := -1 },
          by rw [List.get?_set_eq_of_lt _ hilt], rfl, rfl, rfl, Iff.rfl,
          fun _ => rfl, ?_, ?_⟩
        · constructor
          · intro hx; exact absurd hx hinv
          · intro hx; exact absurd hx (by simp [validLink])
        · intro hx; exact absurd hx hinv
      · exact ⟨fb0, by rw [List.get?_set_ne _ _ (fun h => hji h.symm)]; exact hj,
          rfl, rfl, rfl, Iff.rfl, fun _ => rfl, Iff.rfl, fun _ => rfl⟩

/-- A one-bone skeleton whose child link 7 is out of range. -/
def wBoneBigChild : FlverBone ℚ := ⟨nmA, ⟨1, 2, 3⟩, 0, -1, 7, -1⟩

/-- Witness for C8: starting index 5 on a one-bone skeleton leaves the
state unchanged, and the out-of-range child link 7 behaves like -1. -/
theorem resolver_out_of_range_absent_witness :
    (¬ validLink ([wBone1] : List (FlverBone ℚ)) 5 ∧
      transform_bone wcos wsin [wBone1] true 3 5 affId (initEditBones 1) =
        initEditBones 1) ∧
    (([wBoneBigChild] : List (FlverBone ℚ)).get? 0 = some wBoneBigChild ∧
      ¬ validLink [wBoneBigChild] wBoneBigChild.child_index ∧
      transform_bone wcos wsin [wBoneBigChild] true 2 0 affId (initEditBones 1) =
        transform_bone wcos wsin
          ([wBoneBigChild].set 0 { wBoneBigChild with child_index := -1 })
          true 2 0 affId (initEditBones 1)) := by
  constructor
  · have h : ¬ validLink ([wBone1] : List (FlverBone ℚ)) 5 := by decide
    exact ⟨h, (resolver_out_of_range_absent wcos wsin [wBone1] true).1
      3 5 affId (initEditBones 1) h⟩
  · have hg : ([wBoneBigChild] : List (FlverBone ℚ)).get? 0 = some wBoneBigChild := rfl
    have h : ¬ validLink [wBoneBigChild] wBoneBigChild.child_index := by decide
    exact ⟨hg, h, (resolver_out_of_range_absent wcos wsin [wBoneBigChild] true).2.1
      0 wBoneBigChild hg h 2 0 affId (initEditBones 1)⟩

/-- Run a fallible function over a list, collecting the results in order
and stopping at the first error. -/
def traverseEx {α β : Type} (f : α → Except String β) : List α → Except String (List β)
  | [] => .ok []
  | a :: t =>
    match f a with
    | .error e => .error e
    | .ok b => (traverseEx f t).map fun bs => b :: bs

@[simp] theorem except_error_bind {α β : Type} (e : String)
    (k : α → Except String β) : (Except.error e >>= k) = Except.error e := rfl

@[simp] theorem except_ok_bind {α β : Type} (a : α)
    (k : α → Except String β) : (Except.ok a >>= k) = k a := rfl

@[simp] theorem except_map_error {α β : Type} (e : String) (f : α → β) :
    (Except.error e : Except String α).map f = Except.error e := rfl

@[simp] theorem except_map_ok {α β : Type} (a : α) (f : α → β) :
    (Except.ok a : Except String α).map f = Except.ok (f a) := rfl

/-- The mesh loop of import_flver, characterised: folding the bind over
the zipped mesh/inflation pairs equals filtering out the null inflation
slots and then binding each remaining pair in order. -/
theorem import_loop_eq_filterMap (base_name : String) (flver_data : FlverData K)
    (armature : Option (List (EditBone K))) (z_up : Bool)
    (pairs : List (MeshDesc × Option (InflatedMesh K)))
    (acc : List (BoundMesh K)) :
    (pairs.foldlM
      (fun (acc : List (BoundMesh K)) (mp : MeshDesc × Option (InflatedMesh K)) =>
        match mp.2 with
        | none => pure acc
        | some inflated_mesh =>
          (create_mesh base_name flver_data mp.1 inflated_mesh armature z_up).map
            fun bm => acc ++ [bm])
      acc) =
    (traverseEx (fun q => create_mesh base_name flver_data q.1 q.2 armature z_up)
      (pairs.filterMap fun mp => mp.2.map fun im => (mp.1, im))).map
      fun ms => acc ++ ms := by
  induction pairs generalizing acc with
  | nil => simp [List.foldlM, traverseEx, Except.map, pure, Except.pure]
  | cons mp t ih =>
    obtain ⟨m, om⟩ := mp
    cases om with
    | none =>
      simp only [List.foldlM_cons, List.filterMap_cons]
      simpa using ih acc
    | some im =>
      simp only [List.foldlM_cons, List.filterMap_cons, Option.map_some,
        traverseEx]
      cases hc : create_mesh base_name flver_data m im armature z_up with
      | error e => simp
      | ok bm =>
        simp only [except_map_ok, except_ok_bind]
        rw [ih (acc ++ [bm])]
        cases hm : traverseEx
            (fun q => create_mesh base_name flver_data q.1 q.2 armature z_up)
            (t.filterMap fun mp => mp.2.map fun im => (mp.1, im)) with
        | error e => simp
        | ok ms => simp

theorem traverseEx_ok_mem {α β : Type} (f : α → Except String β) (l : List α)
    (bs : List β) (h : traverseEx f l = .ok bs) :
    ∀ b ∈ bs, ∃ a ∈ l, f a = .ok b := by
  induction l generalizing bs with
  | nil =>
    simp only [traverseEx, Except.ok.injEq] at h
    subst h; intro b hb; simp at hb
  | cons a t ih =>
    simp only [traverseEx] at h
    cases hf : f a with
    | error e => rw [hf] at h; cases h
    | ok b0 =>
      rw [hf] at h
      cases ht : traverseEx f t with
      | error e => rw [ht] at h; cases h
      | ok ts =>
        rw [ht] at h
        simp only [except_map_ok, Except.ok.injEq] at h
        subst h
        intro b hb
        rcases List.mem_cons.mp hb with hb0 | hbt
        · exact ⟨a, List.mem_cons_self a t, hb0 ▸ hf⟩
        · rcases ih ts ht b hbt with ⟨a1, ha1, hfa1⟩
          exact ⟨a1, List.mem_cons_of_mem a ha1, hfa1⟩

/-- A mesh bound without an armature has no vertex groups and no deform
layer (lines 89-99 and 114 are skipped). -/
theorem create_mesh_no_armature (base_name : String) (flver_data : FlverData K)
    (flver_mesh : MeshDesc) (inflated_mesh : InflatedMesh K) (z_up : Bool)
    (bm : BoundMesh K)
    (h : create_mesh base_name flver_data flver_mesh inflated_mesh none z_up =
      .ok bm) :
    bm.groupNames = [] ∧ bm.deform = none := by
  unfold create_mesh at h
  cases hmat : pyGet? flver_data.materials flver_mesh.material_index with
  | none => rw [hmat] at h; cases h
  | some nm =>
    rw [hmat] at h
    simp only [Option.isSome_none, Bool.false_eq_true, if_false,
      Except.ok.injEq] at h
    subst h
    exact ⟨rfl, rfl⟩

/-- C9: the import produces exactly one bound mesh per mesh slot whose
inflation result is non-null, in order, each built by create_mesh; null
slots are skipped without error.  Moreover, with zero bones no armature
is built and every produced mesh is unbound: it has no vertex groups and
no deform layer (the weight pass is skipped entirely). -/
theorem import_skips_null_and_unbound (fcos fsin fsqrt : K → K)
    (base_name : String) (flver_data : FlverData K)
    (inflated_meshes : List (Option (InflatedMesh K))) (z_up : Bool)
    (fuelT fuelC : Nat) :
    (import_flver fcos fsin fsqrt base_name flver_data inflated_meshes z_up
        fuelT fuelC =
      (traverseEx
        (fun q => create_mesh base_name flver_data q.1 q.2
          (if flver_data.bones.length > 0 then
            create_armature fcos fsin fsqrt flver_data.bones z_up fuelT fuelC
          else none) z_up)
        ((flver_data.meshes.zip inflated_meshes).filterMap
          fun mp => mp.2.map fun im => (mp.1, im))).map
        fun ms => ⟨if flver_data.bones.length > 0 then
            create_armature fcos fsin fsqrt flver_data.bones z_up fuelT fuelC
          else none, ms⟩) ∧
    (flver_data.bones = [] →
      ∀ r, import_flver fcos fsin fsqrt base_name flver_data inflated_meshes
          z_up fuelT fuelC = .ok r →
        r.armature = none ∧
        ∀ bm ∈ r.meshes, bm.deform = none ∧ bm.groupNames = []) := by
  have harm : (import_flver fcos fsin fsqrt base_name flver_data
      inflated_meshes z_up fuelT fuelC) =
      ((flver_data.meshes.zip inflated_meshes).foldlM
        (fun (acc : List (BoundMesh K)) (mp : MeshDesc × Option (InflatedMesh K)) =>
          match mp.2 with
          | none => pure acc
          | some inflated_mesh =>
            (create_mesh base_name flver_data mp.1 inflated_mesh
              (if flver_data.bones.length > 0 then
                create_armature fcos fsin fsqrt flver_data.bones z_up fuelT fuelC
              else none) z_up).map
              fun bm => acc ++ [bm])
        []).map (fun ms => ⟨if flver_data.bones.length > 0 then
            create_armature fcos fsin fsqrt flver_data.bones z_up fuelT fuelC
          else none, ms⟩) := rfl
  constructor
  · rw [harm, import_loop_eq_filterMap]
    cases traverseEx
        (fun q => create_mesh base_name flver_data q.1 q.2
          (if flver_data.bones.length > 0 then
            create_armature fcos fsin fsqrt flver_data.bones z_up fuelT fuelC
          else none) z_up)
        ((flver_data.meshes.zip inflated_meshes).filterMap
          fun mp => mp.2.map fun im => (mp.1, im)) with
    | error e => simp
    | ok ms => simp
  · intro hb r hr
    have hn : flver_data.bones.length = 0 := by rw [hb]; rfl
    rw [harm, import_loop_eq_filterMap] at hr
    cases ht : traverseEx
        (fun q => create_mesh base_name flver_data q.1 q.2
          (if flver_data.bones.length > 0 then
            create_armature fcos fsin fsqrt flver_data.bones z_up fuelT fuelC
          else none) z_up)
        ((flver_data.meshes.zip inflated_meshes).filterMap
          fun mp => mp.2.map fun im => (mp.1, im)) with
    | error e => rw [ht] at hr; cases hr
    | ok ms =>
      rw [ht] at hr
      simp only [except_map_ok, Except.ok.injEq] at hr
      subst hr
      have hif : (if flver_data.bones.length > 0 then
          create_armature fcos fsin fsqrt flver_data.bones z_up fuelT fuelC
        else none) = none := by simp [hn]
      refine ⟨by simp [hif], fun bm hbm => ?_⟩
      rw [hif] at ht
      rcases traverseEx_ok_mem _ _ _ ht bm (by simpa using hbm) with ⟨q, _, hq⟩
      rcases create_mesh_no_armature base_name flver_data q.1 q.2 z_up bm hq
        with ⟨h1, h2⟩
      exact ⟨h2, h1⟩

def nmBase : String := "model"

def nmMat : String := "mat"

def nmModelMat : String := "model_mat"

def wMeshD : MeshDesc := ⟨0, []⟩

def wIm : InflatedMesh ℚ := ⟨[(1, 2, 3)], [], [], []⟩

/-- An asset with zero bones, one material and two mesh slots. -/
def wFlverNoBones : FlverData ℚ := ⟨[], [nmMat], [wMeshD, wMeshD]⟩

/-- Witness for C9: a zero-bone asset whose first mesh slot inflated to
null; the import succeeds, skips the null slot, produces the one
remaining mesh, and that mesh is unbound. -/
theorem import_skips_null_and_unbound_witness :
    wFlverNoBones.bones = [] ∧
    import_flver wcos wsin wsqrt nmBase wFlverNoBones [none, some wIm] true 1 1 =
      .ok ⟨none, [⟨nmModelMat, [(1, 3, 2)], [], [], none⟩]⟩ ∧
    (∀ r, import_flver wcos wsin wsqrt nmBase wFlverNoBones [none, some wIm]
        true 1 1 = .ok r →
      r.armature = none ∧ ∀ bm ∈ r.meshes, bm.deform = none ∧ bm.groupNames = []) :=
  ⟨rfl, rfl,
    (import_skips_null_and_unbound wcos wsin wsqrt nmBase wFlverNoBones
      [none, some wIm] true 1 1).2 rfl⟩

/-! ## The deform table: lookup lemmas and the last-write-wins
characterisation of the per-vertex weight fold. -/

theorem dget?_nil (i : Nat) : dget? ([] : List (Nat × K)) i = none := rfl

theorem dget?_cons_self (i : Nat) (u : K) (t : List (Nat × K)) :
    dget? ((i, u) :: t) i = some u := by
  simp [dget?, List.find?_cons]

theorem dget?_cons_ne (j : Nat) (u : K) (t : List (Nat × K)) (i : Nat)
    (h : j ≠ i) : dget? ((j, u) :: t) i = dget? t i := by
  simp [dget?, List.find?_cons, h]

theorem dget?_dset_self (l : List (Nat × K)) (i : Nat) (w : K) :
    dget? (dset l i w) i = some w := by
  induction l with
  | nil => simp [dset, dget?_cons_self]
  | cons p t ih =>
    obtain ⟨j, u⟩ := p
    by_cases hj : j = i
    · subst hj; simp only [dset, eq_self_iff_true, if_true]
      exact dget?_cons_self j w t
    · simp only [dset, if_neg hj]
      rw [dget?_cons_ne _ _ _ _ hj]
      exact ih

theorem dget?_dset_ne (l : List (Nat × K)) (i j : Nat) (w : K) (h : j ≠ i) :
    dget? (dset l i w) j = dget? l j := by
  induction l with
  | nil =>
    simp only [dset]
    rw [dget?_cons_ne _ _ _ _ (fun hh => h hh.symm)]
  | cons p t ih =>
    obtain ⟨k, u⟩ := p
    by_cases hk : k = i
    · subst hk
      simp only [dset, eq_self_iff_true, if_true]
      rw [dget?_cons_ne _ _ _ _ (fun hh => h hh.symm),
        dget?_cons_ne _ _ _ _ (fun hh => h hh.symm)]
    · simp only [dset, if_neg hk]
      by_cases hkj : k = j
      · subst hkj
        rw [dget?_cons_self, dget?_cons_self]
      · rw [dget?_cons_ne _ _ _ _ hkj, dget?_cons_ne _ _ _ _ hkj]
        exact ih

/-- The weight that the last nonzero-weight pair with slot i carries, in
sequence order, if any. -/
def lastNonzero (l : List (Nat × K)) (i : Nat) : Option K :=
  (l.reverse.find? fun p => decide (p.1 = i ∧ p.2 ≠ 0)).map fun p => p.2

/-- The per-vertex weight fold of lines 133-135 obeys last-write-wins: the
final value at slot i is the weight of the last pair with that slot and a
nonzero weight, and otherwise whatever the accumulator held. -/
theorem weight_fold_char (l : List (Nat × K)) (acc : List (Nat × K)) (i : Nat) :
    dget? (l.foldl (fun a p => if p.2 ≠ 0 then dset a p.1 p.2 else a) acc) i =
      (lastNonzero l i).or (dget? acc i) := by
  induction l generalizing acc with
  | nil => simp [lastNonzero]
  | cons p t ih =>
    obtain ⟨k, w⟩ := p
    simp only [List.foldl_cons]
    rw [ih]
    have hrev : lastNonzero ((k, w) :: t) i =
        (lastNonzero t i).or (([((k, w) : Nat × K)].find? fun p =>
          decide (p.1 = i ∧ p.2 ≠ 0)).map fun p => p.2) := by
      simp only [lastNonzero, List.reverse_cons, List.find?_append]
      cases t.reverse.find? fun p => decide ((p.1 = i ∧ p.2 ≠ 0)) <;> simp
    rw [hrev]
    cases hlast : lastNonzero t i with
    | some u => simp
    | none =>
      simp only [Option.none_or]
      by_cases hw : w = 0
      · subst hw
        simp [dget?, List.find?_cons]
      · by_cases hk : k = i
        · subst hk
          rw [if_pos (by simpa using hw), dget?_dset_self]
          simp [List.find?_cons, hw]
        · rw [if_pos (by simpa using hw),
            dget?_dset_ne _ _ _ _ (fun h => hk h.symm)]
          simp [List.find?_cons, hk, hw]

/-- C10: in the deform table built by create_mesh, for any vertex whose
slot list mentions the same slot several times, the recorded weight for
that slot is the weight of the last nonzero pair in sequence order; later
pairs overwrite earlier ones and weights are never summed. -/
theorem weight_last_write_wins (base_name : String) (flver_data : FlverData K)
    (flver_mesh : MeshDesc) (inflated_mesh : InflatedMesh K)
    (armature : Option (List (EditBone K))) (z_up : Bool) (bm : BoundMesh K)
    (v slot : Nat) (weights : List K) (slots : List Nat)
    (harm : armature.isSome = true)
    (hok : create_mesh base_name flver_data flver_mesh inflated_mesh armature
      z_up = .ok bm)
    (hv : v < inflated_mesh.positions.length)
    (hw : inflated_mesh.bone_weights.get? v = some weights)
    (hs : inflated_mesh.bone_indices.get? v = some slots) :
    ∃ d, bm.deform = some d ∧
      d.get? v = some (vertexDeform inflated_mesh.bone_weights
        inflated_mesh.bone_indices v) ∧
      dget? (vertexDeform inflated_mesh.bone_weights
        inflated_mesh.bone_indices v) slot = lastNonzero (slots.zip weights) slot := by
  unfold create_mesh at hok
  cases hmat : pyGet? flver_data.materials flver_mesh.material_index with
  | none => rw [hmat] at hok; cases hok
  | some nm =>
    rw [hmat] at hok
    simp only [harm, if_true, Except.ok.injEq] at hok
    subst hok
    refine ⟨_, rfl, ?_, ?_⟩
    · rw [List.get?_map, List.get?_range hv]
      rfl
    · unfold vertexDeform
      rw [hw, hs]
      rw [weight_fold_char]
      simp [dget?]

/-- A one-vertex mesh whose slot list mentions slot 2 twice with nonzero
weights 3 then 4, and slot 1 once with weight 5. -/
def wImDup : InflatedMesh ℚ := ⟨[(0, 0, 0)], [[3, 4, 5]], [[2, 2, 1]], []⟩

def wFlverDup : FlverData ℚ := ⟨[], [nmMat], [wMeshD]⟩

def wBmDup : BoundMesh ℚ :=
  ⟨nmModelMat, [(0, 0, 0)], [], [], some [[(2, 4), (1, 5)]]⟩

/-- Witness for C10: with slots [2, 2, 1] and weights [3, 4, 5], the
recorded weight for slot 2 is 4, the last nonzero weight in sequence
order, not 3 and not the sum 7. -/
theorem weight_last_write_wins_witness :
    (some ([] : List (EditBone ℚ))).isSome = true ∧
    create_mesh nmBase wFlverDup wMeshD wImDup (some []) true = .ok wBmDup ∧
    0 < wImDup.positions.length ∧
    wImDup.bone_weights.get? 0 = some ([3, 4, 5] : List ℚ) ∧
    wImDup.bone_indices.get? 0 = some [2, 2, 1] ∧
    (∃ d, wBmDup.deform = some d ∧
      d.get? 0 = some (vertexDeform wImDup.bone_weights wImDup.bone_indices 0) ∧
      dget? (vertexDeform wImDup.bone_weights wImDup.bone_indices 0) 2 =
        lastNonzero ([2, 2, 1].zip ([3, 4, 5] : List ℚ)) 2) ∧
    lastNonzero ([2, 2, 1].zip ([3, 4, 5] : List ℚ)) 2 = some 4 :=
  ⟨rfl, rfl, by decide, rfl, rfl,
    weight_last_write_wins nmBase wFlverDup wMeshD wImDup (some []) true wBmDup
      0 2 ([3, 4, 5] : List ℚ) [2, 2, 1] rfl rfl (by decide) rfl rfl,
    by decide⟩

/-! ## Vertex group creation and the realized weight binding -/

/-- The name a palette entry contributes: the name of the skeleton bone it
designates (unused default for entries whose lookup fails). -/
def pname (bones : List (FlverBone K)) (e : Int) : String :=
  match pyGet? bones e with
  | some b => b.name
  | none => ""

theorem pyGet?_nonneg {α : Type} (l : List α) (i : Int) (h : 0 ≤ i) :
    pyGet? l i = l.get? i.toNat := by
  simp [pyGet?, h]

/-- When every palette entry designates an existing skeleton bone, the
group creation loop of lines 95-99 creates one group per palette entry,
in palette order, named after the designated bone. -/
theorem group_fold_valid (bones : List (FlverBone K)) (palette : List Int)
    (acc : List String)
    (h : ∀ e ∈ palette, (pyGet? bones e).isSome = true) :
    palette.foldl
      (fun acc bone_index =>
        match pyGet? bones bone_index with
        | some b => acc ++ [b.name]
        | none => acc) acc =
    acc ++ palette.map (pname bones) := by
  induction palette generalizing acc with
  | nil => simp
  | cons e t ih =>
    simp only [List.foldl_cons, List.map_cons]
    have he := h e (List.mem_cons_self e t)
    cases hp : pyGet? bones e with
    | none => rw [hp] at he; cases he
    | some b =>
      rw [ih _ (fun x hx => h x (List.mem_cons_of_mem _ hx))]
      simp [pname, hp]

theorem idxOf?_eq_of_nodup (l : List String) (s : Nat) (x : String)
    (h : l.get? s = some x) (hnd : l.Nodup) : idxOf? x l = some s := by
  induction l generalizing s with
  | nil => cases h
  | cons a t ih =>
    cases s with
    | zero =>
      have : a = x := Option.some.inj h
      simp [idxOf?, this]
    | succ m =>
      have hx : x ∈ t := List.get?_mem h
      have hax : ¬ a = x := by
        intro he; subst he
        exact (List.nodup_cons.mp hnd).1 hx
      simp only [idxOf?, if_neg hax]
      rw [ih m h (List.nodup_cons.mp hnd).2]
      rfl

/-- C2 (amended): when every palette entry designates an existing skeleton
bone, the palette entries are distinct, the bone names are distinct, and
an armature exists, the weight binding that the produced mesh realizes
(through the vertex group named after the designated bone) resolves every
local slot s through the palette: for each vertex, the weight bound to
skeleton bone palette[s] is exactly the last nonzero weight recorded for
slot s in the vertex slot/weight pairs, and it is absent exactly when
every pair for slot s has weight zero. -/
theorem weight_remap_resolved_of_valid (base_name : String)
    (flver_data : FlverData K) (flver_mesh : MeshDesc)
    (inflated_mesh : InflatedMesh K) (armature : Option (List (EditBone K)))
    (z_up : Bool) (bm : BoundMesh K) (v s : Nat) (e : Int)
    (weights : List K) (slots : List Nat)
    (hnames : (flver_data.bones.map fun b => b.name).Nodup)
    (hpal : ∀ x ∈ flver_mesh.bone_indices,
      0 ≤ x ∧ x < (flver_data.bones.length : Int))
    (hpalnd : flver_mesh.bone_indices.Nodup)
    (harm : armature.isSome = true)
    (hok : create_mesh base_name flver_data flver_mesh inflated_mesh armature
      z_up = .ok bm)
    (hv : v < inflated_mesh.positions.length)
    (hw : inflated_mesh.bone_weights.get? v = some weights)
    (hs : inflated_mesh.bone_indices.get? v = some slots)
    (hse : flver_mesh.bone_indices.get? s = some e) :
    boundWeight? flver_data.bones bm v e.toNat =
      lastNonzero (slots.zip weights) s := by
  have hmem : e ∈ flver_mesh.bone_indices := List.get?_mem hse
  obtain ⟨he0, helt⟩ := hpal e hmem
  have hetn : e.toNat < flver_data.bones.length := by omega
  obtain ⟨bone, hbone⟩ : ∃ b, flver_data.bones.get? e.toNat = some b := by
    cases hgx : flver_data.bones.get? e.toNat with
    | none => rw [List.get?_eq_none] at hgx; omega
    | some b => exact ⟨b, rfl⟩
  unfold create_mesh at hok
  cases hmat : pyGet? flver_data.materials flver_mesh.material_index with
  | none => rw [hmat] at hok; cases hok
  | some nm =>
    rw [hmat] at hok
    simp only [harm, if_true, Except.ok.injEq] at hok
    subst hok
    have hvalid : ∀ x ∈ flver_mesh.bone_indices,
        (pyGet? flver_data.bones x).isSome = true := by
      intro x hx
      obtain ⟨hx0, hxlt⟩ := hpal x hx
      rw [pyGet?_nonneg _ _ hx0]
      rw [List.get?_eq_get (by omega)]
      rfl
    have hinj : ∀ x ∈ flver_mesh.bone_indices, ∀ y ∈ flver_mesh.bone_indices,
        pname flver_data.bones x = pname flver_data.bones y → x = y := by
      intro x hx y hy hxy
      obtain ⟨hx0, hxlt⟩ := hpal x hx
      obtain ⟨hy0, hylt⟩ := hpal y hy
      have hxn : (flver_data.bones.map fun b => b.name).get? x.toNat =
          some (pname flver_data.bones x) := by
        rw [List.get?_map]
        rw [pname, pyGet?_nonneg _ _ hx0]
        cases hgx : flver_data.bones.get? x.toNat with
        | none => rw [List.get?_eq_none] at hgx; omega
        | some b => rfl
      have hyn : (flver_data.bones.map fun b => b.name).get? y.toNat =
          some (pname flver_data.bones y) := by
        rw [List.get?_map]
        rw [pname, pyGet?_nonneg _ _ hy0]
        cases hgy : flver_data.bones.get? y.toNat with
        | none => rw [List.get?_eq_none] at hgy; omega
        | some b => rfl
      have : x.toNat = y.toNat := by
        refine List.get?_inj (by simpa using (by omega : x.toNat < flver_data.bones.length)) hnames ?_
        rw [hxn, hyn, hxy]
      omega
    have hgn : flver_mesh.bone_indices.foldl
        (fun acc bone_index =>
          match pyGet? flver_data.bones bone_index with
          | some b => acc ++ [b.name]
          | none => acc) ([] : List String) =
        flver_mesh.bone_indices.map (pname flver_data.bones) := by
      rw [group_fold_valid _ _ _ hvalid]
      rfl
    have hpname : pname flver_data.bones e = bone.name := by
      rw [pname, pyGet?_nonneg _ _ he0, hbone]
    have hidx : idxOf? bone.name
        (flver_mesh.bone_indices.map (pname flver_data.bones)) = some s := by
      refine idxOf?_eq_of_nodup _ s _ ?_ (hpalnd.map_on hinj)
      rw [List.get?_map, hse]
      rw [← hpname]
      rfl
    have hdv : ((List.range inflated_mesh.positions.length).map
        (vertexDeform inflated_mesh.bone_weights inflated_mesh.bone_indices)).get? v
        = some (vertexDeform inflated_mesh.bone_weights
          inflated_mesh.bone_indices v) := by
      rw [List.get?_map, List.get?_range hv]
      rfl
    simp only [boundWeight?, hbone, hgn, hidx, hdv]
    unfold vertexDeform
    rw [hw, hs, weight_fold_char]
    simp [dget?]

def wBoneA : FlverBone ℚ := ⟨nmA, 0, 0, -1, -1, -1⟩

def wBoneB : FlverBone ℚ := ⟨nmB, 0, 0, -1, -1, -1⟩

/-- A mesh with the fully valid, duplicate-free palette [1, 0] over a
two-bone skeleton. -/
def wMeshPal : MeshDesc := ⟨0, [1, 0]⟩

def wImPal : InflatedMesh ℚ := ⟨[(0, 0, 0)], [[2, 3]], [[0, 1]], []⟩

def wFlverPal : FlverData ℚ := ⟨[wBoneA, wBoneB], [nmMat], [wMeshPal]⟩

def wBmPal : BoundMesh ℚ :=
  ⟨nmModelMat, [(0, 0, 0)], [], [nmB, nmA], some [[(0, 2), (1, 3)]]⟩

/-- Witness for the amended C2: with the valid palette [1, 0], the vertex
pair (slot 0, weight 2) is bound to skeleton bone 1 = palette[0]. -/
theorem weight_remap_resolved_of_valid_witness :
    ((wFlverPal.bones.map fun b => b.name).Nodup ∧
      (∀ x ∈ wMeshPal.bone_indices, 0 ≤ x ∧ x < (wFlverPal.bones.length : Int)) ∧
      wMeshPal.bone_indices.Nodup ∧
      create_mesh nmBase wFlverPal wMeshPal wImPal (some []) true = .ok wBmPal) ∧
    boundWeight? wFlverPal.bones wBmPal 0 (1 : Int).toNat =
      lastNonzero ([0, 1].zip ([2, 3] : List ℚ)) 0 ∧
    lastNonzero ([0, 1].zip ([2, 3] : List ℚ)) 0 = some 2 := by
  refine ⟨⟨by decide, by decide, by decide, rfl⟩, ?_, by decide⟩
  exact weight_remap_resolved_of_valid nmBase wFlverPal wMeshPal wImPal
    (some []) true wBmPal 0 0 1 [2, 3] [0, 1] (by decide) (by decide)
    (by decide) rfl rfl (by decide) rfl rfl rfl

def nmB0 : String := "b0"

def wBone0 : FlverBone ℚ := ⟨nmB0, 0, 0, -1, -1, -1⟩

/-- A mesh whose palette [9, 0] has entry 0 out of range for the one-bone
skeleton and entry 1 valid. -/
def wMeshShift : MeshDesc := ⟨0, [9, 0]⟩

def wImShift : InflatedMesh ℚ := ⟨[(0, 0, 0)], [[2, 3]], [[0, 1]], []⟩

def wFlverShift : FlverData ℚ := ⟨[wBone0], [nmMat], [wMeshShift]⟩

def wBmShift : BoundMesh ℚ :=
  ⟨nmModelMat, [(0, 0, 0)], [], [nmB0], some [[(0, 2), (1, 3)]]⟩

/-- Counterexample to C2 as stated: the weight pass does not resolve the
local slot through the palette.  Vertex 0 carries the nonzero pair
(slot 1, weight 3), and slot 1 resolves through the palette to the valid
skeleton bone 0; yet the produced mesh does not record the triple
(vertex 0, bone 0, 3).  Instead bone 0 carries weight 2: the raw slot
index 0 of the other pair aliases the vertex group that the shifted group
creation gave to bone 0. -/
theorem weight_remap_not_palette_resolved :
    create_mesh nmBase wFlverShift wMeshShift wImShift (some []) true =
      .ok wBmShift ∧
    wMeshShift.bone_indices.get? 1 = some 0 ∧
    (0 : Int) ≤ 0 ∧ (0 : Int) < (wFlverShift.bones.length : Int) ∧
    wImShift.bone_indices.get? 0 = some [0, 1] ∧
    wImShift.bone_weights.get? 0 = some ([2, 3] : List ℚ) ∧
    (3 : ℚ) ≠ 0 ∧
    boundWeight? wFlverShift.bones wBmShift 0 0 = some 2 ∧
    ¬ boundWeight? wFlverShift.bones wBmShift 0 0 = some 3 :=
  ⟨rfl, rfl, by decide, by decide, rfl, rfl, by decide, by decide, by decide⟩

def wImShift4 : InflatedMesh ℚ := ⟨[(0, 0, 0)], [[5, 7]], [[0, 1]], []⟩

def wBmShift4 : BoundMesh ℚ :=
  ⟨nmModelMat, [(0, 0, 0)], [], [nmB0], some [[(0, 5), (1, 7)]]⟩

/-- C4, evaluated at the failing input: palette [9, 0] over a one-bone
skeleton, vertex pairs (slot 0, weight 5) and (slot 1, weight 7).  The
pair at slot 0 is malformed (palette entry 9 is outside the skeleton),
and the claim says only that pair is skipped while the valid pair binds
bone 0 with weight 7.  Instead the group creation silently skips the bad
entry, so the single group (index 0) is named for bone 0; the malformed
pair is not skipped but written under its raw slot 0, binding bone 0 with
weight 5, while the valid pair sits under the dangling key 1 and binds
nothing. -/
theorem palette_shift_misbinds :
    create_mesh nmBase wFlverShift wMeshShift wImShift4 (some []) true =
      .ok wBmShift4 ∧
    wBmShift4.groupNames = [nmB0] ∧
    wBmShift4.deform = some [[(0, 5), (1, 7)]] ∧
    boundWeight? wFlverShift.bones wBmShift4 0 0 = some 5 ∧
    ¬ boundWeight? wFlverShift.bones wBmShift4 0 0 = some 7 :=
  ⟨rfl, rfl, rfl, by decide, by decide⟩

/-! ## The resolver traversal on a spanning link chain -/

/-- When the link l encodes the chain of trees ts, the traversal launched
on l (only when l is usable, exactly as transform_bone guards its calls)
visits precisely the nodes of ts in preorder, provided the fuel covers
the number of nodes. -/
theorem visits_chain (bones : List (FlverBone K)) :
    ∀ (N : Nat) (ts : BTList) (l : Int) (fuel : Nat),
      (nodesC ts).length ≤ N →
      encChain bones l ts = true →
      (nodesC ts).length ≤ fuel →
      (if 0 ≤ l ∧ l < (bones.length : Int) then visits bones fuel l else []) =
        nodesC ts := by
  intro N
  induction N with
  | zero =>
    intro ts l fuel hN henc hfuel
    cases ts with
    | nil =>
      simp only [encChain, decide_eq_true_eq] at henc
      rw [if_neg henc]
      rfl
    | cons t ts' =>
      obtain ⟨i, cs⟩ := t
      simp [nodesC, nodesT] at hN
  | succ Nn ih =>
    intro ts l fuel hN henc hfuel
    cases ts with
    | nil =>
      simp only [encChain, decide_eq_true_eq] at henc
      rw [if_neg henc]
      rfl
    | cons t ts' =>
      obtain ⟨i, cs⟩ := t
      simp only [encChain, BT.root, Bool.and_eq_true, decide_eq_true_eq] at henc
      obtain ⟨⟨⟨h0, h2⟩, h3⟩, h4⟩ := henc
      simp only [encTree] at h3
      cases hb : bones.get? i with
      | none => rw [hb] at h3; cases h3
      | some b =>
        rw [hb] at h3 h4
        have hilt : i < bones.length := by
          rcases List.get?_eq_some.mp hb with ⟨h, _⟩; exact h
        have hsz : (nodesC (.cons (.node i cs) ts')).length =
            1 + (nodesC cs).length + (nodesC ts').length := by
          simp [nodesC, nodesT]; omega
        rw [if_pos ⟨h0, by omega⟩]
        subst h2
        cases fuel with
        | zero => rw [hsz] at hfuel; omega
        | succ f =>
          have hguard : ¬ ((i : Int) < 0 ∨ (bones.length : Int) ≤ (i : Int)) := by
            omega
          simp only [visits, hguard, if_false]
          have htn : ((i : Int)).toNat = i := Int.toNat_natCast i
          simp only [htn, hb]
          have hchild := ih cs b.child_index f
            (by rw [hsz] at hN; omega) h3 (by rw [hsz] at hfuel; omega)
          have hsib := ih ts' b.next_sibling_index f
            (by rw [hsz] at hN; omega) h4 (by rw [hsz] at hfuel; omega)
          simp only [validLink] at hchild hsib
          rw [hchild, hsib]
          simp [nodesC, nodesT]

theorem parentAt_modifyAt_ne (f : EditBone K → EditBone K) (i j : Nat)
    (s : List (EditBone K)) (h : j ≠ i) :
    parentAt (modifyAt f i s) j = parentAt s j := by
  unfold parentAt
  rw [getD_modifyAt_ne _ _ _ _ _ h]

theorem parentAt_modifyAt_self (f : EditBone K → EditBone K) (i : Nat)
    (s : List (EditBone K)) (h : i < s.length) :
    parentAt (modifyAt f i s) i = (f (s.getD i newEditBone)).parent := by
  unfold parentAt
  rw [getD_modifyAt_self _ _ _ _ h]

theorem length_transform_bone (fcos fsin : K → K) (bones : List (FlverBone K))
    (z_up : Bool) :
    ∀ (fuel : Nat) (bi : Int) (M : Aff K) (s : List (EditBone K)),
      (transform_bone fcos fsin bones z_up fuel bi M s).length = s.length := by
  intro fuel
  induction fuel with
  | zero => intro bi M s; rfl
  | succ f ih =>
    intro bi M s
    by_cases hg : bi < 0 ∨ (bones.length : Int) ≤ bi
    · simp [transform_bone, hg]
    · cases hb : bones.get? bi.toNat with
      | none => simp only [transform_bone, hg, if_false, hb]
      | some fb =>
        simp only [transform_bone, hg, if_false, hb]
        split_ifs <;> simp [ih, length_modifyAt]

/-- A bone outside the visit trace keeps its parent link. -/
theorem parent_unvisited (fcos fsin : K → K) (bones : List (FlverBone K))
    (z_up : Bool) :
    ∀ (fuel : Nat) (bi : Int) (M : Aff K) (s : List (EditBone K)) (j : Nat),
      j ∉ visits bones fuel bi →
      parentAt (transform_bone fcos fsin bones z_up fuel bi M s) j =
        parentAt s j := by
  intro fuel
  induction fuel with
  | zero => intro bi M s j hj; rfl
  | succ f ih =>
    intro bi M s j hj
    by_cases hg : bi < 0 ∨ (bones.length : Int) ≤ bi
    · simp [transform_bone, hg]
    · cases hb : bones.get? bi.toNat with
      | none => simp only [transform_bone, hg, if_false, hb]
      | some fb =>
        simp only [transform_bone, hg, if_false, hb]
        simp only [visits, hg, if_false, hb] at hj
        simp only [List.mem_cons, List.mem_append, not_or] at hj
        obtain ⟨hj0, hjc, hjs⟩ := hj
        have step1 : ∀ s0 : List (EditBone K),
            parentAt (if 0 ≤ fb.parent_index ∧
                fb.parent_index < (bones.length : Int) then
              modifyAt (fun b =>
                { b with parent := some fb.parent_index.toNat }) bi.toNat s0
            else s0) j = parentAt s0 j := by
          intro s0
          split_ifs with hp
          · exact parentAt_modifyAt_ne _ _ _ _ hj0
          · rfl
        have step2 : ∀ s0 : List (EditBone K),
            parentAt (modifyAt (fun b =>
              { b with
                head := convertV3 z_up (M.app fb.translation),
                tail := convertV3 z_up (M.app fb.translation +
                  (rotAff (get_rotation_matrix fcos fsin fb)).app ⟨0, 5 / 100, 0⟩) })
              bi.toNat s0) j = parentAt s0 j :=
          fun s0 => parentAt_modifyAt_ne _ _ _ _ hj0
        by_cases hc : 0 ≤ fb.child_index ∧ fb.child_index < (bones.length : Int) <;>
          by_cases hs : 0 ≤ fb.next_sibling_index ∧
            fb.next_sibling_index < (bones.length : Int)
        · rw [if_pos hc] at hjc
          rw [if_pos hs] at hjs
          simp only [if_pos hc, if_pos hs]
          rw [ih _ _ _ _ hjs, ih _ _ _ _ hjc, step2, step1]
        · rw [if_pos hc] at hjc
          simp only [if_pos hc, if_neg hs]
          rw [ih _ _ _ _ hjc, step2, step1]
        · rw [if_pos hs] at hjs
          simp only [if_neg hc, if_pos hs]
          rw [ih _ _ _ _ hjs, step2, step1]
        · simp only [if_neg hc, if_neg hs]
          rw [step2, step1]

/-- What the traversal does to the parent link of bone j: bones in the
visit trace with a valid parent_index get it as their parent link, all
other bones keep what they had. -/
theorem parent_after (fcos fsin : K → K) (bones : List (FlverBone K))
    (z_up : Bool) :
    ∀ (fuel : Nat) (bi : Int) (M : Aff K) (s : List (EditBone K))
      (j : Nat) (fb : FlverBone K),
      bones.get? j = some fb →
      0 ≤ fb.parent_index → fb.parent_index < (bones.length : Int) →
      j < s.length →
      parentAt (transform_bone fcos fsin bones z_up fuel bi M s) j =
        (if j ∈ visits bones fuel bi then some fb.parent_index.toNat
         else parentAt s j) := by
  intro fuel
  induction fuel with
  | zero =>
    intro bi M s j fb hfb hp0 hplt hjlen
    simp [visits, transform_bone]
  | succ f ih =>
    intro bi M s j fb hfb hp0 hplt hjlen
    by_cases hg : bi < 0 ∨ (bones.length : Int) ≤ bi
    · simp [visits, transform_bone, hg]
    · cases hb : bones.get? bi.toNat with
      | none =>
        simp only [transform_bone, visits, hg, if_false, hb]
        rw [if_neg (List.not_mem_nil j)]
      | some fb0 =>
        simp only [transform_bone, visits, hg, if_false, hb]
        have hstep : ∀ s0 : List (EditBone K), j < s0.length →
            parentAt (modifyAt (fun b =>
              { b with
                head := convertV3 z_up (M.app fb0.translation),
                tail := convertV3 z_up (M.app fb0.translation +
                  (rotAff (get_rotation_matrix fcos fsin fb0)).app
                    ⟨0, 5 / 100, 0⟩) }) bi.toNat
              (if 0 ≤ fb0.parent_index ∧
                  fb0.parent_index < (bones.length : Int) then
                modifyAt (fun b =>
                  { b with parent := some fb0.parent_index.toNat }) bi.toNat s0
              else s0)) j =
            (if j = bi.toNat then some fb.parent_index.toNat
             else parentAt s0 j) := by
          intro s0 hj0
          by_cases hji : j = bi.toNat
          · have hfb0 : fb0 = fb := by
              rw [← hji, hfb] at hb
              exact (Option.some.inj hb).symm
            have hblen : bi.toNat < s0.length := hji ▸ hj0
            rw [if_pos hji, hji]
            have hlen1 : bi.toNat < (if 0 ≤ fb0.parent_index ∧
                fb0.parent_index < (bones.length : Int) then
                modifyAt (fun b =>
                  { b with parent := some fb0.parent_index.toNat }) bi.toNat s0
              else s0).length := by
              split_ifs
              · rw [length_modifyAt]; exact hblen
              · exact hblen
            rw [parentAt_modifyAt_self _ _ _ hlen1]
            show ((if 0 ≤ fb0.parent_index ∧
                fb0.parent_index < (bones.length : Int) then
                modifyAt (fun b =>
                  { b with parent := some fb0.parent_index.toNat }) bi.toNat s0
              else s0).getD bi.toNat newEditBone).parent =
              some fb.parent_index.toNat
            rw [if_pos (by rw [hfb0]; exact ⟨hp0, hplt⟩)]
            rw [getD_modifyAt_self _ _ _ _ hblen]
            rw [hfb0]
          · rw [if_neg hji]
            rw [parentAt_modifyAt_ne _ _ _ _ hji]
            split_ifs with hpr
            · exact parentAt_modifyAt_ne _ _ _ _ hji
            · rfl
        simp only [List.mem_cons, List.mem_append]
        have hlen2 : ∀ s0 : List (EditBone K), s0.length = s.length →
            ((modifyAt (fun b =>
              { b with
                head := convertV3 z_up (M.app fb0.translation),
                tail := convertV3 z_up (M.app fb0.translation +
                  (rotAff (get_rotation_matrix fcos fsin fb0)).app
                    ⟨0, 5 / 100, 0⟩) }) bi.toNat
              (if 0 ≤ fb0.parent_index ∧
                  fb0.parent_index < (bones.length : Int) then
                modifyAt (fun b =>
                  { b with parent := some fb0.parent_index.toNat }) bi.toNat s0
              else s0)).length) = s.length := by
          intro s0 h0
          rw [length_modifyAt]
          split_ifs <;> simp [length_modifyAt, h0]
        by_cases hc : 0 ≤ fb0.child_index ∧
            fb0.child_index < (bones.length : Int) <;>
          by_cases hsb : 0 ≤ fb0.next_sibling_index ∧
            fb0.next_sibling_index < (bones.length : Int)
        · simp only [if_pos hc, if_pos hsb]
          rw [ih _ _ _ _ _ hfb hp0 hplt
            (by rw [length_transform_bone]; rw [hlen2 s rfl]; exact hjlen)]
          by_cases hjs : j ∈ visits bones f fb0.next_sibling_index
          · rw [if_pos hjs, if_pos (by tauto)]
          · rw [if_neg hjs]
            rw [ih _ _ _ _ _ hfb hp0 hplt (by rw [hlen2 s rfl]; exact hjlen)]
            by_cases hjc : j ∈ visits bones f fb0.child_index
            · rw [if_pos hjc, if_pos (by tauto)]
            · rw [if_neg hjc, hstep s hjlen]
              by_cases hji : j = bi.toNat
              · rw [if_pos hji, if_pos (by tauto)]
              · rw [if_neg hji, if_neg (by tauto)]
        · simp only [if_pos hc, if_neg hsb]
          rw [ih _ _ _ _ _ hfb hp0 hplt (by rw [hlen2 s rfl]; exact hjlen)]
          by_cases hjc : j ∈ visits bones f fb0.child_index
          · rw [if_pos hjc, if_pos (by tauto)]
          · rw [if_neg hjc, hstep s hjlen]
            by_cases hji : j = bi.toNat
            · rw [if_pos hji, if_pos (by tauto)]
            · rw [if_neg hji, if_neg (by simp at hjc ⊢; tauto)]
        · simp only [if_neg hc, if_pos hsb]
          rw [ih _ _ _ _ _ hfb hp0 hplt (by rw [hlen2 s rfl]; exact hjlen)]
          by_cases hjs : j ∈ visits bones f fb0.next_sibling_index
          · rw [if_pos hjs, if_pos (by tauto)]
          · rw [if_neg hjs, hstep s hjlen]
            by_cases hji : j = bi.toNat
            · rw [if_pos hji, if_pos (by tauto)]
            · rw [if_neg hji, if_neg (by simp at hjs ⊢; tauto)]
        · simp only [if_neg hc, if_neg hsb]
          rw [hstep s hjlen]
          by_cases hji : j = bi.toNat
          · rw [if_pos hji, if_pos (by tauto)]
          · rw [if_neg hji, if_neg (by simp; tauto)]

theorem modifyAt_oob {α : Type} (f : α → α) (i : Nat) (l : List α)
    (h : l.length ≤ i) : modifyAt f i l = l := by
  induction l generalizing i with
  | nil => cases i <;> rfl
  | cons b t ih =>
    cases i with
    | zero => simp at h
    | succ n =>
      simp only [modifyAt, List.cons.injEq, true_and]
      exact ih n (by simpa using h)

theorem getD_modifyAt_keep {α β : Type} (f : α → α) (g : α → β)
    (hf : ∀ b, g (f b) = g b) (i j : Nat) (l : List α) (d : α) :
    g ((modifyAt f i l).getD j d) = g (l.getD j d) := by
  by_cases hji : j = i
  · subst hji
    by_cases hl : j < l.length
    · rw [getD_modifyAt_self _ _ _ _ hl, hf]
    · rw [modifyAt_oob _ _ _ (by omega)]
  · rw [getD_modifyAt_ne _ _ _ _ _ hji]

theorem parentAt_modifyAt_keep (f : EditBone K → EditBone K)
    (hf : ∀ b, (f b).parent = b.parent) (i j : Nat) (s : List (EditBone K)) :
    parentAt (modifyAt f i s) j = parentAt s j :=
  getD_modifyAt_keep f (fun b => b.parent) hf i j s newEditBone

theorem headAt_modifyAt_keep (f : EditBone K → EditBone K)
    (hf : ∀ b, (f b).head = b.head) (i j : Nat) (s : List (EditBone K)) :
    headAt (modifyAt f i s) j = headAt s j :=
  getD_modifyAt_keep f (fun b => b.head) hf i j s newEditBone

theorem tailAt_modifyAt_keep (f : EditBone K → EditBone K)
    (hf : ∀ b, (f b).tail = b.tail) (i j : Nat) (s : List (EditBone K)) :
    tailAt (modifyAt f i s) j = tailAt s j :=
  getD_modifyAt_keep f (fun b => b.tail) hf i j s newEditBone

theorem useAt_modifyAt_keep (f : EditBone K → EditBone K)
    (hf : ∀ b, (f b).use_connect = b.use_connect) (i j : Nat)
    (s : List (EditBone K)) :
    useAt (modifyAt f i s) j = useAt s j :=
  getD_modifyAt_keep f (fun b => b.use_connect) hf i j s newEditBone

/-- connect_bone never changes the length of the state nor the parent or
head of any bone: it only rewrites tails and use_connect flags. -/
theorem connect_preserves (fsqrt : K → K) :
    ∀ (fuel : Nat) (i : Nat) (s : List (EditBone K)),
      (connect_bone fsqrt fuel i s).length = s.length ∧
      ∀ j, parentAt (connect_bone fsqrt fuel i s) j = parentAt s j ∧
        headAt (connect_bone fsqrt fuel i s) j = headAt s j := by
  intro fuel
  induction fuel with
  | zero => intro i s; exact ⟨rfl, fun j => ⟨rfl, rfl⟩⟩
  | succ f ih =>
    intro i s
    cases hcs : childrenOf s i with
    | nil =>
      cases hp : parentAt s i with
      | none => simp [connect_bone, hcs, hp]
      | some p =>
        simp only [connect_bone, hcs, hp]
        exact ⟨length_modifyAt _ _ _, fun j =>
          ⟨parentAt_modifyAt_keep _ (by intro b; rfl) _ _ _,
           headAt_modifyAt_keep _ (by intro b; rfl) _ _ _⟩⟩
    | cons c cs' =>
      cases cs' with
      | nil =>
        simp only [connect_bone, hcs]
        obtain ⟨hL, hPH⟩ := ih c
          (modifyAt (fun b => { b with use_connect := true }) c
            (modifyAt (fun b => { b with tail := headAt s c }) i s))
        refine ⟨?_, fun j => ⟨?_, ?_⟩⟩
        · rw [hL, length_modifyAt, length_modifyAt]
        · rw [(hPH j).1]
          rw [parentAt_modifyAt_keep _ (by intro b; rfl) _ _ _]
          exact parentAt_modifyAt_keep _ (by intro b; rfl) _ _ _
        · rw [(hPH j).2]
          rw [headAt_modifyAt_keep _ (by intro b; rfl) _ _ _]
          exact headAt_modifyAt_keep _ (by intro b; rfl) _ _ _
      | cons c1 rest =>
        simp only [connect_bone, hcs]
        have hfold : ∀ (l : List Nat) (s0 : List (EditBone K)),
            (l.foldl (fun st c0 => connect_bone fsqrt f c0 st) s0).length =
              s0.length ∧
            ∀ j, parentAt (l.foldl (fun st c0 => connect_bone fsqrt f c0 st) s0) j
                = parentAt s0 j ∧
              headAt (l.foldl (fun st c0 => connect_bone fsqrt f c0 st) s0) j
                = headAt s0 j := by
          intro l
          induction l with
          | nil => intro s0; exact ⟨rfl, fun j => ⟨rfl, rfl⟩⟩
          | cons c0 lt ihl =>
            intro s0
            simp only [List.foldl_cons]
            obtain ⟨hL1, h1⟩ := ih c0 s0
            obtain ⟨hL2, h2⟩ := ihl (connect_bone fsqrt f c0 s0)
            exact ⟨hL2.trans hL1, fun j =>
              ⟨((h2 j).1).trans ((h1 j).1), ((h2 j).2).trans ((h1 j).2)⟩⟩
        exact hfold (c :: c1 :: rest) s

/-- The whole connect pass preserves lengths, parents and heads. -/
theorem connectAll_preserves (fsqrt : K → K) (fuel : Nat) :
    ∀ (roots : List Nat) (s : List (EditBone K)),
      (connectAll fsqrt fuel roots s).length = s.length ∧
      ∀ j, parentAt (connectAll fsqrt fuel roots s) j = parentAt s j ∧
        headAt (connectAll fsqrt fuel roots s) j = headAt s j := by
  intro roots
  induction roots with
  | nil => intro s; exact ⟨rfl, fun j => ⟨rfl, rfl⟩⟩
  | cons r rt ih =>
    intro s
    simp only [connectAll, List.foldl_cons]
    obtain ⟨hL1, h1⟩ := connect_preserves fsqrt fuel r s
    obtain ⟨hL2, h2⟩ := ih (connect_bone fsqrt fuel r s)
    exact ⟨hL2.trans hL1, fun j =>
      ⟨((h2 j).1).trans ((h1 j).1), ((h2 j).2).trans ((h1 j).2)⟩⟩

/-- C5 (amended): when the child/next_sibling links starting at bone 0
encode a chain of trees whose nodes are exactly the N bone indices (a
spanning link forest reachable from bone 0, hence acyclic), the resolver
traversal with fuel N visits every bone exactly once (its trace is a
permutation of 0..N-1 with no duplicates), the armature holds exactly N
edit bones, and every bone whose parent_index lies in [0, N) ends with
that valid parent link into the produced set. -/
theorem resolver_spanning_tree_visits (fcos fsin fsqrt : K → K)
    (bones : List (FlverBone K)) (z_up : Bool) (ts : BTList) (fuelC : Nat)
    (henc : encChain bones 0 ts = true)
    (hspan : (nodesC ts).Perm (List.range bones.length)) :
    visits bones bones.length 0 = nodesC ts ∧
    (visits bones bones.length 0).Perm (List.range bones.length) ∧
    (visits bones bones.length 0).Nodup ∧
    ∀ s', create_armature fcos fsin fsqrt bones z_up bones.length fuelC =
        some s' →
      s'.length = bones.length ∧
      ∀ j fb, bones.get? j = some fb → 0 ≤ fb.parent_index →
        fb.parent_index < (bones.length : Int) →
        parentAt s' j = some fb.parent_index.toNat ∧
        fb.parent_index.toNat < bones.length := by
  have hlen : (nodesC ts).length = bones.length := by
    have := hspan.length_eq
    simpa using this
  have hv : visits bones bones.length 0 = nodesC ts := by
    have hch := visits_chain bones (nodesC ts).length ts 0 bones.length
      le_rfl henc (by rw [hlen])
    cases ts with
    | nil =>
      have hn : bones.length = 0 := hlen.symm
      rw [hn]
      rfl
    | cons t ts' =>
      obtain ⟨i, cs⟩ := t
      simp only [encChain, BT.root, Bool.and_eq_true, decide_eq_true_eq] at henc
      obtain ⟨⟨⟨h0, h2⟩, h3⟩, h4⟩ := henc
      simp only [encTree] at h3
      cases hb : bones.get? i with
      | none => rw [hb] at h3; cases h3
      | some b =>
        have hilt : i < bones.length := by
          rcases List.get?_eq_some.mp hb with ⟨h, _⟩; exact h
        rw [if_pos ⟨le_refl (0 : Int), by omega⟩] at hch
        exact hch
  have hperm : (visits bones bones.length 0).Perm (List.range bones.length) := by
    rw [hv]; exact hspan
  refine ⟨hv, hperm, (hperm.nodup_iff).mpr (List.nodup_range _), ?_⟩
  intro s' hs'
  by_cases hn0 : bones.length = 0
  · rw [create_armature, if_pos hn0] at hs'; cases hs'
  · rw [create_armature, if_neg hn0] at hs'
    have hpos : 0 < bones.length := Nat.pos_of_ne_zero hn0
    simp only [hpos, if_true, Option.some.injEq] at hs'
    subst hs'
    obtain ⟨hLc, hPc⟩ := connectAll_preserves fsqrt fuelC (rootIndices bones)
      (transform_bone fcos fsin bones z_up bones.length 0 affId
        (initEditBones bones.length))
    constructor
    · rw [hLc, length_transform_bone]
      simp [initEditBones]
    · intro j fb hfb hp0 hplt
      have hjlt : j < bones.length := by
        rcases List.get?_eq_some.mp hfb with ⟨h, _⟩; exact h
      have hjmem : j ∈ visits bones bones.length 0 := by
        refine hperm.mem_iff.mpr ?_
        simpa using hjlt
      refine ⟨?_, by omega⟩
      rw [(hPc j).1]
      rw [parent_after fcos fsin bones z_up bones.length 0 affId
        (initEditBones bones.length) j fb hfb hp0 hplt
        (by simpa [initEditBones] using hjlt)]
      rw [if_pos hjmem]

def c5Bones : List (FlverBone ℚ) :=
  [⟨nmA, 0, 0, -1, 1, -1⟩, ⟨nmB, ⟨0, 1, 0⟩, 0, 0, 2, -1⟩,
   ⟨nmC, ⟨0, 1, 0⟩, 0, 1, -1, -1⟩]

def c5Tree : BTList :=
  .cons (.node 0 (.cons (.node 1 (.cons (.node 2 .nil) .nil)) .nil)) .nil

/-- Witness for the amended C5: the three-bone chain root-mid-tip is a
spanning link tree; the traversal visits [0, 1, 2], each bone exactly
once. -/
theorem resolver_spanning_tree_visits_witness :
    (encChain c5Bones 0 c5Tree = true ∧
      (nodesC c5Tree).Perm (List.range c5Bones.length)) ∧
    visits c5Bones c5Bones.length 0 = [0, 1, 2] ∧
    (visits c5Bones c5Bones.length 0).Perm (List.range c5Bones.length) := by
  have h := resolver_spanning_tree_visits wcos wsin wsqrt c5Bones true c5Tree 3
    (by decide) (by decide)
  exact ⟨⟨by decide, by decide⟩, by rw [h.1]; decide, h.2.1⟩

def cxBones : List (FlverBone ℚ) :=
  [⟨nmA, 0, 0, -1, -1, -1⟩, ⟨nmB, 0, 0, -1, -1, -1⟩]

/-- Counterexample to C5 as stated: two bones, no links at all (so
certainly no cycles), but bone 1 is unreachable from bone 0, so the
traversal starting at bone 0 visits only bone 0 and not every bone. -/
theorem resolver_misses_unreachable_bone :
    (∀ b ∈ cxBones, b.parent_index = -1 ∧ b.child_index = -1 ∧
      b.next_sibling_index = -1) ∧
    visits cxBones cxBones.length 0 = [0] ∧
    ¬ (visits cxBones cxBones.length 0).Perm (List.range cxBones.length) := by
  refine ⟨by decide, by decide, fun h => ?_⟩
  have hlen := h.length_eq
  have h1 : visits cxBones cxBones.length 0 = [0] := by decide
  have h2 : cxBones.length = 2 := rfl
  rw [h1, h2] at hlen
  simp at hlen

/-! ## The chain simplifier: structure of the connect pass over an
encoded parent forest -/

/-- connect_bone never clears a use_connect flag. -/
theorem connect_use_mono (fsqrt : K → K) :
    ∀ (fuel : Nat) (i : Nat) (s : List (EditBone K)) (j : Nat),
      useAt s j = true → useAt (connect_bone fsqrt fuel i s) j = true := by
  intro fuel
  induction fuel with
  | zero => intro i s j h; exact h
  | succ f ih =>
    intro i s j h
    cases hcs : childrenOf s i with
    | nil =>
      cases hp : parentAt s i with
      | none => simpa [connect_bone, hcs, hp] using h
      | some p =>
        simp only [connect_bone, hcs, hp]
        rw [useAt_modifyAt_keep _ (by intro b; rfl) _ _ _]
        exact h
    | cons c cs' =>
      cases cs' with
      | nil =>
        simp only [connect_bone, hcs]
        apply ih
        have h1 : useAt (modifyAt (fun b =>
            { b with tail := headAt s c }) i s) j = true := by
          rw [useAt_modifyAt_keep _ (by intro b; rfl) _ _ _]
          exact h
        by_cases hjc : j = c
        · subst hjc
          by_cases hl : j < s.length
          · unfold useAt
            rw [getD_modifyAt_self _ _ _ _ (by rw [length_modifyAt]; exact hl)]
          · unfold useAt
            rw [modifyAt_oob _ _ _ (by rw [length_modifyAt]; omega)]
            exact h1
        · unfold useAt
          rw [getD_modifyAt_ne _ _ _ _ _ hjc]
          exact h1
      | cons c1 rest =>
        simp only [connect_bone, hcs]
        have hfold : ∀ (l : List Nat) (s0 : List (EditBone K)),
            useAt s0 j = true →
            useAt (l.foldl (fun st c0 => connect_bone fsqrt f c0 st) s0) j =
              true := by
          intro l
          induction l with
          | nil => intro s0 h0; exact h0
          | cons c0 lt ihl =>
            intro s0 h0
            simp only [List.foldl_cons]
            exact ihl _ (ih c0 s0 j h0)
        exact hfold (c :: c1 :: rest) s h

theorem childrenOf_eq_of_fields (s s' : List (EditBone K))
    (hl : s'.length = s.length)
    (hp : ∀ j, parentAt s' j = parentAt s j) :
    ∀ i, childrenOf s' i = childrenOf s i := by
  intro i
  unfold childrenOf
  rw [hl]
  apply List.filter_congr
  intro j hj
  rw [hp j]

/-- connect_bone does not change which bones are whose children. -/
theorem childrenOf_connect (fsqrt : K → K) (fuel : Nat) (r : Nat)
    (s : List (EditBone K)) :
    ∀ i, childrenOf (connect_bone fsqrt fuel r s) i = childrenOf s i := by
  obtain ⟨hL, hPH⟩ := connect_preserves fsqrt fuel r s
  exact childrenOf_eq_of_fields s _ hL (fun j => (hPH j).1)

mutual

theorem encCT_congr (s s' : List (EditBone K))
    (hl : s'.length = s.length)
    (hc : ∀ i, childrenOf s' i = childrenOf s i) :
    ∀ t : BT, encCT s' t = encCT s t
  | .node i cs => by
    simp only [encCT, hl, hc, encCTs_congr s s' hl hc cs]

theorem encCTs_congr (s s' : List (EditBone K))
    (hl : s'.length = s.length)
    (hc : ∀ i, childrenOf s' i = childrenOf s i) :
    ∀ ts : BTList, encCTs s' ts = encCTs s ts
  | .nil => rfl
  | .cons t ts => by
    simp only [encCTs, encCT_congr s s' hl hc t, encCTs_congr s s' hl hc ts]

end

theorem rootsC_subset_nodesC : ∀ (ts : BTList), ∀ r ∈ rootsC ts, r ∈ nodesC ts
  | .nil => by intro r hr; cases hr
  | .cons t ts => by
    intro r hr
    obtain ⟨i, cs⟩ := t
    simp only [rootsC, BT.root, List.mem_cons] at hr
    simp only [nodesC, nodesT, List.mem_append, List.mem_cons]
    rcases hr with hr | hr
    · exact Or.inl (Or.inl hr)
    · exact Or.inr (rootsC_subset_nodesC ts r hr)

mutual

/-- In an encoded tree, the children of any node of the tree are nodes of
the tree. -/
theorem enc_children_subT (s : List (EditBone K)) :
    ∀ t : BT, encCT s t = true →
      ∀ p ∈ nodesT t, ∀ c ∈ childrenOf s p, c ∈ nodesT t
  | .node i cs => by
    intro henc p hp c hc
    simp only [encCT, Bool.and_eq_true, decide_eq_true_eq] at henc
    obtain ⟨⟨hil, hch⟩, hcs⟩ := henc
    simp only [nodesT, List.mem_cons] at hp ⊢
    rcases hp with hp | hp
    · subst hp
      rw [hch] at hc
      exact Or.inr (rootsC_subset_nodesC cs c hc)
    · exact Or.inr (enc_children_subC s cs hcs p hp c hc)

theorem enc_children_subC (s : List (EditBone K)) :
    ∀ ts : BTList, encCTs s ts = true →
      ∀ p ∈ nodesC ts, ∀ c ∈ childrenOf s p, c ∈ nodesC ts
  | .nil => by intro _ p hp; cases hp
  | .cons t ts => by
    intro henc p hp c hc
    simp only [encCTs, Bool.and_eq_true] at henc
    obtain ⟨h1, h2⟩ := henc
    simp only [nodesC, List.mem_append] at hp ⊢
    rcases hp with hp | hp
    · exact Or.inl (enc_children_subT s t h1 p hp c hc)
    · exact Or.inr (enc_children_subC s ts h2 p hp c hc)

end

theorem mem_childrenOf_lt (s : List (EditBone K)) (i c : Nat)
    (h : c ∈ childrenOf s i) : c < s.length := by
  unfold childrenOf at h
  have := List.mem_filter.mp h
  simpa using this.1

theorem root_mem_nodesT : ∀ t : BT, t.root ∈ nodesT t
  | .node i cs => by simp [BT.root, nodesT]

theorem parentAt_some_lt (s : List (EditBone K)) (j p : Nat)
    (h : parentAt s j = some p) : j < s.length := by
  by_contra hge
  unfold parentAt at h
  rw [List.getD_eq_default _ _ (by omega)] at h
  cases h

theorem mem_childrenOf_of_parent (s : List (EditBone K)) (j p : Nat)
    (h : parentAt s j = some p) : j ∈ childrenOf s p := by
  unfold childrenOf
  refine List.mem_filter.mpr ⟨?_, by simp [h]⟩
  simpa using parentAt_some_lt s j p h

theorem connectAll_use_mono (fsqrt : K → K) (fuel : Nat) :
    ∀ (roots : List Nat) (s : List (EditBone K)) (j : Nat),
      useAt s j = true → useAt (connectAll fsqrt fuel roots s) j = true := by
  intro roots
  induction roots with
  | nil => intro s j h; exact h
  | cons r rt ih =>
    intro s j h
    simp only [connectAll, List.foldl_cons]
    exact ih _ _ (connect_use_mono fsqrt fuel r s j h)

theorem tailAt_eq_of_getD (s' s : List (EditBone K)) (j : Nat)
    (h : s'.getD j newEditBone = s.getD j newEditBone) :
    tailAt s' j = tailAt s j :=
  congrArg (fun b => b.tail) h

theorem useAt_eq_of_getD (s' s : List (EditBone K)) (j : Nat)
    (h : s'.getD j newEditBone = s.getD j newEditBone) :
    useAt s' j = useAt s j :=
  congrArg (fun b => b.use_connect) h

/-- What the connect pass guarantees for one bone j: sIn is the state the
pass started from, sOut the state it ended in.  A childless bone with a
parent gets the direction-inherited tail (the parent tail read from sOut,
where it is already final); a bone with exactly one child gets its tail
snapped to that child head and the child marked connected; a bone with
several children keeps its tail. -/
def connPost (fsqrt : K → K) (sIn sOut : List (EditBone K)) (j : Nat) : Prop :=
  (childrenOf sIn j = [] →
    (parentAt sIn j = none → tailAt sOut j = tailAt sIn j) ∧
    (∀ p, parentAt sIn j = some p →
      tailAt sOut j = headAt sIn j +
        scale (magV fsqrt (tailAt sIn j - headAt sIn j))
          (normalizeV fsqrt (tailAt sOut p - headAt sIn p)))) ∧
  (∀ c, childrenOf sIn j = [c] →
    tailAt sOut j = headAt sIn c ∧ useAt sOut c = true) ∧
  (2 ≤ (childrenOf sIn j).length → tailAt sOut j = tailAt sIn j)

theorem connPost_entry_congr (fsqrt : K → K)
    (sA sB sOut : List (EditBone K)) (j : Nat)
    (hch : childrenOf sB j = childrenOf sA j)
    (hpar : parentAt sB j = parentAt sA j)
    (hheads : ∀ k, headAt sB k = headAt sA k)
    (htail : tailAt sB j = tailAt sA j)
    (h : connPost fsqrt sB sOut j) : connPost fsqrt sA sOut j := by
  obtain ⟨P1, P2, P3⟩ := h
  refine ⟨?_, ?_, ?_⟩
  · intro h0
    obtain ⟨Q1, Q2⟩ := P1 (by rw [hch]; exact h0)
    refine ⟨fun hpn => ?_, fun p hp => ?_⟩
    · rw [← htail]; exact Q1 (by rw [hpar]; exact hpn)
    · have := Q2 p (by rw [hpar]; exact hp)
      rw [hheads j, hheads p, htail] at this
      exact this
  · intro c hc
    obtain ⟨Q1, Q2⟩ := P2 c (by rw [hch]; exact hc)
    refine ⟨?_, Q2⟩
    rw [← hheads c]; exact Q1
  · intro h2
    rw [← htail]; exact P3 (by rw [hch]; exact h2)

theorem connPost_exit_congr (fsqrt : K → K)
    (sIn sOutA sOutB : List (EditBone K)) (j : Nat)
    (htj : tailAt sOutB j = tailAt sOutA j)
    (htp : ∀ p, parentAt sIn j = some p → tailAt sOutB p = tailAt sOutA p)
    (husec : ∀ c, childrenOf sIn j = [c] →
      useAt sOutA c = true → useAt sOutB c = true)
    (h : connPost fsqrt sIn sOutA j) : connPost fsqrt sIn sOutB j := by
  obtain ⟨P1, P2, P3⟩ := h
  refine ⟨?_, ?_, ?_⟩
  · intro h0
    obtain ⟨Q1, Q2⟩ := P1 h0
    refine ⟨fun hpn => by rw [htj]; exact Q1 hpn, fun p hp => ?_⟩
    rw [htj, htp p hp]
    exact Q2 p hp
  · intro c hc
    obtain ⟨Q1, Q2⟩ := P2 c hc
    exact ⟨by rw [htj]; exact Q1, husec c hc Q2⟩
  · intro h2
    rw [htj]; exact P3 h2

mutual

/-- Running connect_bone on the root of an encoded parent tree touches
only the nodes of the tree and establishes connPost at every node. -/
theorem connect_tree_post (fsqrt : K → K) (fuel : Nat) (t : BT)
    (s : List (EditBone K))
    (henc : encCT s t = true) (hnd : (nodesT t).Nodup)
    (hfuel : (nodesT t).length ≤ fuel) :
    (∀ j, j ∉ nodesT t →
      (connect_bone fsqrt fuel t.root s).getD j newEditBone =
        s.getD j newEditBone) ∧
    (∀ j ∈ nodesT t, connPost fsqrt s (connect_bone fsqrt fuel t.root s) j) := by
  obtain ⟨i, cs⟩ := t
  simp only [encCT, Bool.and_eq_true, decide_eq_true_eq] at henc
  obtain ⟨⟨hilen, hch⟩, hcs⟩ := henc
  simp only [nodesT] at hnd hfuel ⊢
  simp only [BT.root]
  have hnotin : i ∉ nodesC cs := (List.nodup_cons.mp hnd).1
  have hndc : (nodesC cs).Nodup := (List.nodup_cons.mp hnd).2
  cases fuel with
  | zero => simp at hfuel
  | succ f =>
  cases cs with
  | nil =>
    have hch0 : childrenOf s i = [] := by simpa [rootsC] using hch
    cases hp : parentAt s i with
    | none =>
      have heq : connect_bone fsqrt (f + 1) i s = s := by
        simp [connect_bone, hch0, hp]
      rw [heq]
      constructor
      · intro j hj; rfl
      · intro j hj
        have hji : j = i := by simpa [nodesC] using hj
        subst hji
        refine ⟨fun h0 => ⟨fun hpn => rfl, fun q hq => ?_⟩,
          fun c hc => ?_, fun h2 => rfl⟩
        · rw [hp] at hq; cases hq
        · rw [hch0] at hc; simp at hc
    | some p =>
      have hip : p ≠ i := by
        intro he
        subst he
        have hmem : p ∈ childrenOf s p := mem_childrenOf_of_parent s p p hp
        rw [hch0] at hmem
        cases hmem
      have heq : connect_bone fsqrt (f + 1) i s =
          modifyAt (fun b => { b with tail := b.head + scale (magV fsqrt (tailAt s i - headAt s i)) (normalizeV fsqrt (tailAt s p - headAt s p)) }) i s := by
        simp [connect_bone, hch0, hp]
      rw [heq]
      constructor
      · intro j hj
        have hji : j ≠ i := by simpa [nodesC] using hj
        rw [getD_modifyAt_ne _ _ _ _ _ hji]
      · intro j hj
        have hji : j = i := by simpa [nodesC] using hj
        subst hji
        refine ⟨fun h0 => ⟨fun hpn => ?_, fun q hq => ?_⟩,
          fun c hc => ?_, fun h2 => ?_⟩
        · rw [hp] at hpn; cases hpn
        · rw [hp] at hq
          have hqp : q = p := (Option.some.inj hq).symm
          subst hqp
          have htp : tailAt (modifyAt (fun b => { b with tail := b.head + scale (magV fsqrt (tailAt s j - headAt s j)) (normalizeV fsqrt (tailAt s q - headAt s q)) }) j s) q =
              tailAt s q := by
            unfold tailAt
            rw [getD_modifyAt_ne _ _ _ _ _ hip]
          rw [htp]
          unfold tailAt headAt
          rw [getD_modifyAt_self _ _ _ _ hilen]
        · rw [hch0] at hc; simp at hc
        · rw [hch0] at h2; simp at h2
  | cons tc cs' =>
  cases cs' with
  | nil =>
    have hch1 : childrenOf s i = [tc.root] := by simpa [rootsC] using hch
    have hcs1 : encCT s tc = true := by simpa [encCTs] using hcs
    have hnodes : nodesC (BTList.cons tc BTList.nil) = nodesT tc := by
      simp [nodesC]
    rw [hnodes] at hnotin hndc hfuel ⊢
    have hclen : tc.root < s.length :=
      mem_childrenOf_lt s i tc.root (by rw [hch1]; exact List.mem_singleton.mpr rfl)
    have hcne : tc.root ≠ i := fun he => hnotin (he ▸ root_mem_nodesT tc)
    have heq : connect_bone fsqrt (f + 1) i s =
        connect_bone fsqrt f tc.root
          (modifyAt (fun b => { b with use_connect := true }) tc.root
            (modifyAt (fun b => { b with tail := headAt s tc.root }) i s)) := by
      simp [connect_bone, hch1]
    have hl2 : (modifyAt (fun b => { b with use_connect := true }) tc.root
        (modifyAt (fun b => { b with tail := headAt s tc.root }) i s)).length =
        s.length := by
      rw [length_modifyAt, length_modifyAt]
    have hpar2 : ∀ k, parentAt (modifyAt (fun b =>
        { b with use_connect := true }) tc.root
        (modifyAt (fun b => { b with tail := headAt s tc.root }) i s)) k =
        parentAt s k := by
      intro k
      rw [parentAt_modifyAt_keep _ (by intro b; rfl) _ _ _]
      exact parentAt_modifyAt_keep _ (by intro b; rfl) _ _ _
    have hhead2 : ∀ k, headAt (modifyAt (fun b =>
        { b with use_connect := true }) tc.root
        (modifyAt (fun b => { b with tail := headAt s tc.root }) i s)) k =
        headAt s k := by
      intro k
      rw [headAt_modifyAt_keep _ (by intro b; rfl) _ _ _]
      exact headAt_modifyAt_keep _ (by intro b; rfl) _ _ _
    have htail2 : ∀ k, k ≠ i → tailAt (modifyAt (fun b =>
        { b with use_connect := true }) tc.root
        (modifyAt (fun b => { b with tail := headAt s tc.root }) i s)) k =
        tailAt s k := by
      intro k hk
      rw [tailAt_modifyAt_keep _ (by intro b; rfl) _ _ _]
      unfold tailAt
      rw [getD_modifyAt_ne _ _ _ _ _ hk]
    have hch2 := childrenOf_eq_of_fields s _ hl2 hpar2
    have henc2 : encCT (modifyAt (fun b =>
        { b with use_connect := true }) tc.root
        (modifyAt (fun b => { b with tail := headAt s tc.root }) i s)) tc =
        true := by
      rw [encCT_congr s _ hl2 hch2]; exact hcs1
    have hsz : (nodesT tc).length ≤ f := by
      simp only [List.length_cons] at hfuel; omega
    obtain ⟨loc, post⟩ := connect_tree_post fsqrt f tc
      (modifyAt (fun b => { b with use_connect := true }) tc.root
        (modifyAt (fun b => { b with tail := headAt s tc.root }) i s))
      henc2 hndc hsz
    rw [heq]
    constructor
    · intro j hj
      have hji : j ≠ i := fun he => hj (he ▸ List.mem_cons_self i _)
      have hjt : j ∉ nodesT tc := fun hm => hj (List.mem_cons_of_mem i hm)
      have hjc : j ≠ tc.root := fun he => hjt (he ▸ root_mem_nodesT tc)
      rw [loc j hjt]
      rw [getD_modifyAt_ne _ _ _ _ _ hjc]
      exact getD_modifyAt_ne _ _ _ _ _ hji
    · intro j hj
      rcases List.mem_cons.mp hj with hji | hjt
      · subst hji
        refine ⟨fun h0 => ?_, fun c hc => ?_, fun h2 => ?_⟩
        · rw [hch1] at h0; simp at h0
        · rw [hch1] at hc
          have hc' : tc.root = c := by simpa using hc
          subst hc'
          constructor
          · rw [tailAt_eq_of_getD _ _ _ (loc j hnotin)]
            rw [tailAt_modifyAt_keep _ (by intro b; rfl) _ _ _]
            unfold tailAt
            rw [getD_modifyAt_self _ _ _ _ hilen]
          · apply connect_use_mono fsqrt f tc.root _ tc.root
            unfold useAt
            rw [getD_modifyAt_self _ _ _ _ (by rw [length_modifyAt]; exact hclen)]
        · rw [hch1] at h2; simp at h2
      · have hji : j ≠ i := fun he => hnotin (he ▸ hjt)
        exact connPost_entry_congr fsqrt s _ _ j (hch2 j) (hpar2 j) hhead2
          (htail2 j hji) (post j hjt)
  | cons tb rest =>
    have hch2p : childrenOf s i = tc.root :: tb.root :: rootsC rest := by
      simpa [rootsC] using hch
    have heq : connect_bone fsqrt (f + 1) i s =
        connectAll fsqrt f (rootsC (BTList.cons tc (BTList.cons tb rest))) s := by
      simp only [connect_bone, hch2p, connectAll, rootsC]
    have hsz : (nodesC (BTList.cons tc (BTList.cons tb rest))).length ≤ f := by
      simp only [List.length_cons] at hfuel; omega
    obtain ⟨loc, post⟩ := connect_chain_post fsqrt f
      (BTList.cons tc (BTList.cons tb rest)) s hcs hndc hsz
    rw [heq]
    constructor
    · intro j hj
      exact loc j (fun hm => hj (List.mem_cons_of_mem i hm))
    · intro j hj
      rcases List.mem_cons.mp hj with hji | hjt
      · subst hji
        refine ⟨fun h0 => ?_, fun c hc => ?_, fun h2 => ?_⟩
        · rw [hch2p] at h0; simp at h0
        · rw [hch2p] at hc; simp at hc
        · exact tailAt_eq_of_getD _ _ _ (loc j hnotin)
      · exact post j hjt
termination_by (fuel, sizeOf t)

/-- Running connect_bone over the roots of an encoded forest, in order
(the shape of lines 245-246), touches only the forest nodes and
establishes connPost at every node. -/
theorem connect_chain_post (fsqrt : K → K) (fuel : Nat) (ts : BTList)
    (s : List (EditBone K))
    (henc : encCTs s ts = true) (hnd : (nodesC ts).Nodup)
    (hfuel : (nodesC ts).length ≤ fuel) :
    (∀ j, j ∉ nodesC ts →
      (connectAll fsqrt fuel (rootsC ts) s).getD j newEditBone =
        s.getD j newEditBone) ∧
    (∀ j ∈ nodesC ts,
      connPost fsqrt s (connectAll fsqrt fuel (rootsC ts) s) j) := by
  cases ts with
  | nil =>
    constructor
    · intro j hj; rfl
    · intro j hj; simp [nodesC] at hj
  | cons t ts' =>
    simp only [encCTs, Bool.and_eq_true] at henc
    obtain ⟨henc1, henc2⟩ := henc
    simp only [nodesC] at hnd hfuel ⊢
    rw [List.nodup_append] at hnd
    obtain ⟨hnd1, hnd2, hdisj⟩ := hnd
    have hsz1 : (nodesT t).length ≤ fuel := by
      rw [List.length_append] at hfuel; omega
    have hsz2 : (nodesC ts').length ≤ fuel := by
      rw [List.length_append] at hfuel; omega
    obtain ⟨locT, postT⟩ := connect_tree_post fsqrt fuel t s henc1 hnd1 hsz1
    obtain ⟨hL1, hPH1⟩ := connect_preserves fsqrt fuel t.root s
    have hc1 : ∀ k, childrenOf (connect_bone fsqrt fuel t.root s) k =
        childrenOf s k :=
      childrenOf_eq_of_fields s _ hL1 (fun k => (hPH1 k).1)
    have henc2' : encCTs (connect_bone fsqrt fuel t.root s) ts' = true := by
      rw [encCTs_congr s _ hL1 hc1]; exact henc2
    obtain ⟨locC, postC⟩ := connect_chain_post fsqrt fuel ts'
      (connect_bone fsqrt fuel t.root s) henc2' hnd2 hsz2
    have hfold : connectAll fsqrt fuel (rootsC (BTList.cons t ts')) s =
        connectAll fsqrt fuel (rootsC ts') (connect_bone fsqrt fuel t.root s) :=
      rfl
    rw [hfold]
    constructor
    · intro j hj
      simp only [List.mem_append, not_or] at hj
      obtain ⟨hj1, hj2⟩ := hj
      rw [locC j hj2, locT j hj1]
    · intro j hj
      rcases List.mem_append.mp hj with hjt | hjc
      · have hjnotc : j ∉ nodesC ts' := fun hm => hdisj hjt hm
        refine connPost_exit_congr fsqrt s _ _ j ?_ ?_ ?_ (postT j hjt)
        · exact tailAt_eq_of_getD _ _ _ (locC j hjnotc)
        · intro p hp
          have hjmem : j ∈ childrenOf s p := mem_childrenOf_of_parent s j p hp
          have hpnot : p ∉ nodesC ts' := by
            intro hpm
            exact hjnotc (enc_children_subC s ts' henc2 p hpm j hjmem)
          exact tailAt_eq_of_getD _ _ _ (locC p hpnot)
        · intro c hc hu
          exact connectAll_use_mono fsqrt fuel _ _ c hu
      · have hjnott : j ∉ nodesT t := fun hm => hdisj hm hjc
        refine connPost_entry_congr fsqrt s _ _ j (hc1 j) ((hPH1 j).1)
          (fun k => (hPH1 k).2) ?_ (postC j hjc)
        exact tailAt_eq_of_getD _ _ _ (locT j hjnott)
termination_by (fuel, sizeOf ts)

end

/-! ## Vector algebra used by the simplifier claims. -/

theorem scale_scale (a b : K) (v : V3 K) :
    scale a (scale b v) = scale (a * b) v := by
  simp [scale, mul_assoc]

theorem crossV_scale_self (a : K) (v : V3 K) : crossV (scale a v) v = 0 := by
  simp only [crossV, scale, v3_zero_def, V3.mk.injEq]
  refine ⟨by ring, by ring, by ring⟩

theorem v3_add_sub_cancel (a v : V3 K) : (a + v) - a = v := by
  simp [add_sub_cancel_left]

theorem dotV_self_nonneg (v : V3 ℝ) : 0 ≤ dotV v v := by
  simp only [dotV]
  nlinarith [sq_nonneg v.x, sq_nonneg v.y, sq_nonneg v.z]

theorem dotV_self_eq_zero (v : V3 ℝ) : dotV v v = 0 ↔ v = 0 := by
  obtain ⟨x, y, z⟩ := v
  simp only [dotV, v3_zero_def, V3.mk.injEq]
  constructor
  · intro h
    refine ⟨?_, ?_, ?_⟩ <;> nlinarith [sq_nonneg x, sq_nonneg y, sq_nonneg z]
  · rintro ⟨hx, hy, hz⟩
    rw [hx, hy, hz]; ring

theorem magV_pos_of_ne (v : V3 ℝ) (h : v ≠ 0) : 0 < magV Real.sqrt v := by
  have h1 : 0 < dotV v v :=
    lt_of_le_of_ne (dotV_self_nonneg v)
      (fun he => h ((dotV_self_eq_zero v).mp he.symm))
  simpa [magV] using Real.sqrt_pos.mpr h1

theorem magV_nonneg (v : V3 ℝ) : 0 ≤ magV Real.sqrt v := Real.sqrt_nonneg _

theorem magV_scale (c : ℝ) (v : V3 ℝ) :
    magV Real.sqrt (scale c v) = |c| * magV Real.sqrt v := by
  have hdot : dotV (scale c v) (scale c v) = c ^ 2 * dotV v v := by
    simp only [dotV, scale]; ring
  simp only [magV, hdot]
  rw [Real.sqrt_mul (sq_nonneg c), Real.sqrt_sq_eq_abs]

/-! ## C3: the single-child rule of the simplifier. -/

/-- C3 (corrected).  Over any forest of trees whose parent links encode the
edit-bone children relation (the trees on which connect_bone is actually
started), every bone with exactly one child ends, after the simplifier, with
its tail exactly equal to that child's final head, and the child carries
use_connect = true; the rule holds at every node of the forest, so it has
been applied recursively below each such bone (lines 240-243).  The claim's
quantification over every bone of the armature is too strong: line 245
starts connect_bone only at the root bones collected on line 181 (bones
whose parent_index is negative), so a single-child bone lying outside those
trees is never simplified -- see the counterexample. -/
theorem connect_single_child_tail (fsqrt : K → K) (fuel : Nat) (ts : BTList)
    (s : List (EditBone K))
    (henc : encCTs s ts = true) (hnd : (nodesC ts).Nodup)
    (hfuel : (nodesC ts).length ≤ fuel)
    (j c : Nat) (hj : j ∈ nodesC ts) (hc : childrenOf s j = [c]) :
    tailAt (connectAll fsqrt fuel (rootsC ts) s) j =
      headAt (connectAll fsqrt fuel (rootsC ts) s) c ∧
    useAt (connectAll fsqrt fuel (rootsC ts) s) c = true := by
  obtain ⟨-, post⟩ := connect_chain_post fsqrt fuel ts s henc hnd hfuel
  obtain ⟨-, P2, -⟩ := post j hj
  obtain ⟨ht, hu⟩ := P2 c hc
  exact ⟨ht.trans (((connectAll_preserves fsqrt fuel (rootsC ts) s).2 c).2).symm, hu⟩

def c3Forest : BTList :=
  BTList.cons (BT.node 0 (BTList.cons (BT.node 1 BTList.nil) BTList.nil))
    BTList.nil

def c3State : List (EditBone ℚ) :=
  [⟨⟨0, 0, 0⟩, ⟨1, 0, 0⟩, none, false⟩,
   ⟨⟨2, 0, 0⟩, ⟨3, 0, 0⟩, some 0, false⟩]

/-- Witness for C3: a two-bone chain, bone 0 the root with single child
bone 1; after the simplifier bone 0's tail is bone 1's head and bone 1 is
marked connected. -/
theorem connect_single_child_tail_witness :
    encCTs c3State c3Forest = true ∧
    (tailAt (connectAll wsqrt 2 (rootsC c3Forest) c3State) 0 =
        headAt (connectAll wsqrt 2 (rootsC c3Forest) c3State) 1 ∧
      useAt (connectAll wsqrt 2 (rootsC c3Forest) c3State) 1 = true) :=
  ⟨by decide, connect_single_child_tail wsqrt 2 c3Forest c3State (by decide)
    (by decide) (by decide) 0 1 (by decide) (by decide)⟩

def cxC3Bones : List (FlverBone ℚ) :=
  [⟨nmA, ⟨0, 0, 0⟩, 0, 99, 1, -1⟩,
   ⟨nmB, ⟨1, 0, 0⟩, 0, 0, -1, -1⟩]

/-- C3 counterexample: bone 0 has parent_index 99, so it is not collected
as a root on line 181 (that needs parent_index < 0) and is never given a
parent edit bone on line 193 (that needs parent_index < N); bone 1 names
bone 0 as parent, so in the edit state bone 0 has exactly one child.  The
simplifier loop on line 245 iterates over the empty root list and never
touches bone 0: its tail stays the resolver tail, which differs from bone
1's head, and bone 1 is never marked connected, refuting the claim for
this armature. -/
theorem connect_skips_unrooted_bone :
    ∃ s : List (EditBone ℚ),
      create_armature wcos wsin wsqrt cxC3Bones false 4 4 = some s ∧
      childrenOf s 0 = [1] ∧ tailAt s 0 ≠ headAt s 1 ∧ useAt s 1 = false := by
  refine ⟨[⟨⟨0, 0, 0⟩, ⟨0, 1 / 20, 0⟩, none, false⟩,
      ⟨⟨1, 0, 0⟩, ⟨1, 1 / 20, 0⟩, some 0, false⟩], ?_, by decide, ?_, rfl⟩
  · have h0 : create_armature wcos wsin wsqrt cxC3Bones false 4 4 =
        some (transform_bone wcos wsin cxC3Bones false (3 + 1) 0 affId
          (initEditBones 2)) := rfl
    rw [h0, transform_bone]
    norm_num [cxC3Bones, modifyAt, initEditBones, newEditBone, convertV3,
      convert_coordinates, get_rotation_matrix, rotX, rotY, rotZ, mmul,
      mulVec, dotV, col0, col1, col2, Aff.app, Aff.comp, rotAff,
      translationAff, affId, idM3, wcos, wsin, List.replicate, scale]
    rw [show (3 : Nat) = 2 + 1 from rfl, transform_bone]
    norm_num [modifyAt, initEditBones, newEditBone, convertV3,
      convert_coordinates, get_rotation_matrix, rotX, rotY, rotZ, mmul,
      mulVec, dotV, col0, col1, col2, Aff.app, Aff.comp, rotAff,
      translationAff, affId, idM3, wcos, wsin, List.replicate, scale]
  · show (⟨0, 1 / 20, 0⟩ : V3 ℚ) ≠ (⟨1, 0, 0⟩ : V3 ℚ)
    intro h
    rw [V3.mk.injEq] at h
    norm_num at h

/-! ## C6: the leaf rule of the simplifier. -/

/-- C6 (corrected).  Over the real numbers with the exact square root, for
every leaf bone j (no children) of a forest encoding the edit-bone children
relation: if j has no parent its tail is left unchanged by the simplifier,
and if j has parent p and the parent's final tail-minus-head direction d is
nonzero, then j's new tail-minus-head is parallel to d (cross product
exactly zero) and j's tail-head distance is exactly preserved (lines
228-235).  The claim's length-preservation part is too strong: mathutils
normalize leaves a zero vector unchanged, so when d = 0 the leaf's tail
collapses onto its head and the original length is lost -- see the
counterexample; the nonzero-direction hypothesis is needed. -/
theorem connect_leaf_direction (fuel : Nat) (ts : BTList)
    (s : List (EditBone ℝ))
    (henc : encCTs s ts = true) (hnd : (nodesC ts).Nodup)
    (hfuel : (nodesC ts).length ≤ fuel)
    (j : Nat) (hj : j ∈ nodesC ts) (hleaf : childrenOf s j = []) :
    (parentAt s j = none →
      tailAt (connectAll Real.sqrt fuel (rootsC ts) s) j = tailAt s j) ∧
    ∀ p, parentAt s j = some p →
      tailAt (connectAll Real.sqrt fuel (rootsC ts) s) p - headAt s p ≠ 0 →
      crossV (tailAt (connectAll Real.sqrt fuel (rootsC ts) s) j - headAt s j)
          (tailAt (connectAll Real.sqrt fuel (rootsC ts) s) p - headAt s p) =
          0 ∧
        magV Real.sqrt
            (tailAt (connectAll Real.sqrt fuel (rootsC ts) s) j -
              headAt s j) =
          magV Real.sqrt (tailAt s j - headAt s j) := by
  obtain ⟨-, post⟩ := connect_chain_post Real.sqrt fuel ts s henc hnd hfuel
  obtain ⟨P1, -, -⟩ := post j hj
  obtain ⟨Pnone, Psome⟩ := P1 hleaf
  refine ⟨Pnone, fun p hp hd => ?_⟩
  have hf := Psome p hp
  have hsub : tailAt (connectAll Real.sqrt fuel (rootsC ts) s) j -
      headAt s j =
      scale (magV Real.sqrt (tailAt s j - headAt s j))
        (normalizeV Real.sqrt
          (tailAt (connectAll Real.sqrt fuel (rootsC ts) s) p -
            headAt s p)) := by
    rw [hf]; exact v3_add_sub_cancel _ _
  have hdd : ¬ dotV (tailAt (connectAll Real.sqrt fuel (rootsC ts) s) p -
      headAt s p)
      (tailAt (connectAll Real.sqrt fuel (rootsC ts) s) p - headAt s p) =
      0 :=
    fun h0 => hd ((dotV_self_eq_zero _).mp h0)
  have hnorm : normalizeV Real.sqrt
      (tailAt (connectAll Real.sqrt fuel (rootsC ts) s) p - headAt s p) =
      scale (1 / magV Real.sqrt
          (tailAt (connectAll Real.sqrt fuel (rootsC ts) s) p - headAt s p))
        (tailAt (connectAll Real.sqrt fuel (rootsC ts) s) p - headAt s p) := by
    rw [normalizeV, if_neg hdd]
  constructor
  · rw [hsub, hnorm, scale_scale]
    exact crossV_scale_self _ _
  · rw [hsub, hnorm, scale_scale, magV_scale]
    have hm : 0 < magV Real.sqrt
        (tailAt (connectAll Real.sqrt fuel (rootsC ts) s) p - headAt s p) :=
      magV_pos_of_ne _ hd
    rw [abs_of_nonneg (mul_nonneg (magV_nonneg _)
      (le_of_lt (one_div_pos.mpr hm)))]
    rw [one_div, mul_assoc, inv_mul_cancel₀ (ne_of_gt hm), mul_one]

def c6Forest : BTList :=
  BTList.cons (BT.node 0 (BTList.cons (BT.node 1 BTList.nil) BTList.nil))
    BTList.nil

def c6State : List (EditBone ℝ) :=
  [⟨⟨0, 0, 0⟩, ⟨0, 1, 0⟩, none, false⟩,
   ⟨⟨1, 0, 0⟩, ⟨1, 1, 0⟩, some 0, false⟩]

/-- Witness for C6: bone 1 is a leaf with parent bone 0; bone 0's final
tail-minus-head direction is (1,0,0), nonzero, so bone 1's simplified tail
direction is parallel to it and its length is preserved. -/
theorem connect_leaf_direction_witness :
    (tailAt (connectAll Real.sqrt 2 (rootsC c6Forest) c6State) 0 -
        headAt c6State 0 ≠ 0) ∧
    (crossV (tailAt (connectAll Real.sqrt 2 (rootsC c6Forest) c6State) 1 -
          headAt c6State 1)
        (tailAt (connectAll Real.sqrt 2 (rootsC c6Forest) c6State) 0 -
          headAt c6State 0) = 0 ∧
      magV Real.sqrt
          (tailAt (connectAll Real.sqrt 2 (rootsC c6Forest) c6State) 1 -
            headAt c6State 1) =
        magV Real.sqrt (tailAt c6State 1 - headAt c6State 1)) := by
  have ht : tailAt (connectAll Real.sqrt 2 (rootsC c6Forest) c6State) 0 =
      ⟨1, 0, 0⟩ := rfl
  have hd : tailAt (connectAll Real.sqrt 2 (rootsC c6Forest) c6State) 0 -
      headAt c6State 0 ≠ 0 := by
    rw [ht]
    show (⟨1, 0, 0⟩ : V3 ℝ) - ⟨0, 0, 0⟩ ≠ 0
    intro h
    rw [v3_sub_def, v3_zero_def, V3.mk.injEq] at h
    norm_num at h
  exact ⟨hd, (connect_leaf_direction 2 c6Forest c6State (by decide) (by decide)
    (by decide) 1 (by decide) (by decide)).2 0 rfl hd⟩

def cx6State : List (EditBone ℝ) :=
  [⟨⟨0, 0, 0⟩, ⟨0, 3, 0⟩, none, false⟩,
   ⟨⟨0, 0, 0⟩, ⟨0, 3, 0⟩, some 0, false⟩]

/-- C6 counterexample: bone 0's single child bone 1 has the same head as
bone 0, so after line 241 sets bone 0's tail to that head, the leaf bone
1's parent direction on line 231 is the zero vector; mathutils normalize
leaves it zero, and line 234 collapses bone 1's tail onto its head.  The
original tail-head length 3 is not preserved: the simplified length is 0,
refuting exact length preservation without a nonzero-direction
hypothesis. -/
theorem connect_leaf_zero_direction_collapses :
    childrenOf cx6State 1 = [] ∧ parentAt cx6State 1 = some 0 ∧
    magV Real.sqrt (tailAt cx6State 1 - headAt cx6State 1) = 3 ∧
    magV Real.sqrt
      (tailAt (connectAll Real.sqrt 2 (rootsC c6Forest) cx6State) 1 -
        headAt (connectAll Real.sqrt 2 (rootsC c6Forest) cx6State) 1) = 0 := by
  obtain ⟨-, post⟩ := connect_chain_post Real.sqrt 2 c6Forest cx6State
    (by decide) (by decide) (by decide)
  obtain ⟨P1a, -, -⟩ := post 1 (by decide)
  obtain ⟨-, P2b, -⟩ := post 0 (by decide)
  obtain ⟨ht0, -⟩ := P2b 1 rfl
  have hf := (P1a rfl).2 0 rfl
  have hzero : tailAt (connectAll Real.sqrt 2 (rootsC c6Forest) cx6State) 0 -
      headAt cx6State 0 = 0 := by
    rw [ht0]
    show (⟨0, 0, 0⟩ : V3 ℝ) - ⟨0, 0, 0⟩ = 0
    rw [v3_sub_def, v3_zero_def, V3.mk.injEq]
    norm_num
  rw [hzero] at hf
  have hn : normalizeV Real.sqrt (0 : V3 ℝ) = 0 := by
    rw [normalizeV, if_pos]
    rw [v3_zero_def]
    show (0 : ℝ) * 0 + 0 * 0 + 0 * 0 = 0
    norm_num
  rw [hn] at hf
  have hcollapse : tailAt (connectAll Real.sqrt 2 (rootsC c6Forest) cx6State)
      1 = headAt cx6State 1 := by
    rw [hf]
    simp [scale]
  have hhead : headAt (connectAll Real.sqrt 2 (rootsC c6Forest) cx6State) 1 =
      headAt cx6State 1 :=
    ((connectAll_preserves Real.sqrt 2 (rootsC c6Forest) cx6State).2 1).2
  refine ⟨rfl, rfl, ?_, ?_⟩
  · have h1 : tailAt cx6State 1 - headAt cx6State 1 = ⟨0, 3, 0⟩ := by
      show (⟨0, 3, 0⟩ : V3 ℝ) - ⟨0, 0, 0⟩ = ⟨0, 3, 0⟩
      rw [v3_sub_def, V3.mk.injEq]
      norm_num
    rw [h1]
    show Real.sqrt (0 * 0 + 3 * 3 + 0 * 0) = 3
    rw [show ((0 : ℝ) * 0 + 3 * 3 + 0 * 0) = 3 ^ 2 by norm_num]
    exact Real.sqrt_sq (by norm_num)
  · rw [hcollapse, hhead]
    have h2 : headAt cx6State 1 - headAt cx6State 1 = (0 : V3 ℝ) := by
      show (⟨0, 0, 0⟩ : V3 ℝ) - ⟨0, 0, 0⟩ = 0
      rw [v3_sub_def, v3_zero_def, V3.mk.injEq]
      norm_num
    rw [h2]
    show Real.sqrt (dotV 0 0) = 0
    rw [show dotV (0 : V3 ℝ) 0 = 0 by rw [v3_zero_def]; show (0 : ℝ) * 0 + 0 * 0 + 0 * 0 = 0; norm_num]
    exact Real.sqrt_zero

end FlverImport
